import Mathlib

/-
Verification development for the pydupe repository.

The Python sources are shallowly embedded as executable Lean definitions:
  * `LuTable` models `pydupe/lutable.py` (insertion-ordered dict from hash
    to a deque of paths); paths and hashes are plain strings.
  * `check_and_autoselect`, `dd3` and its intermediate stages model
    `pydupe/dupetable.py`.  A Python exception (KeyError / failed assert)
    is modelled by returning `none`.
  * `checkHash` models `pydupe/data.py`, including the exact semantics of
    the regex `^[a-f0-9]{64}(:.+)?$` compiled with `re.IGNORECASE`.
  * `validate` / `deleteOp` model `Dupetable.validate` / `Dupetable.delete`;
    the filesystem is a function from path to observed stat results.
Compiled regular expressions that are user inputs are abstracted as
predicates on the file name (`re.search` semantics); the two fixed
autoselect regexes "." and "a^" of `dd3` are modelled concretely.
-/

namespace Pydupe

/-! ### Strings and paths

A path is modelled as its POSIX string (`str(path)` of a normalized
absolute `pathlib.Path`).  Python compares paths by that string, and
`sorted` on paths is lexicographic on code points, which coincides with
lexicographic comparison of the character lists. -/

/-- Lexicographic `≤` on character lists, by code point: the order Python
uses to compare (path) strings. -/
def listLe : List Char → List Char → Bool
  | [], _ => true
  | _ :: _, [] => false
  | a :: as, b :: bs => if a < b then true else if b < a then false else listLe as bs

/-- String comparison as Python compares `str(path)` values. -/
def strLe (a b : String) : Bool := listLe a.data b.data

/-- Insert into a `strLe`-sorted list, keeping it sorted. -/
def insertLe (a : String) : List String → List String
  | [] => [a]
  | b :: bs => if strLe a b then a :: b :: bs else b :: insertLe a bs

/-- Model of Python `sorted` on a list of strings (or of paths, compared
by their full string form). -/
def sortStrs : List String → List String
  | [] => []
  | x :: xs => insertLe x (sortStrs xs)

/-- Prefix test on character lists. -/
def listPre : List Char → List Char → Bool
  | [], _ => true
  | _ :: _, [] => false
  | a :: as, b :: bs => a == b && listPre as bs

/-- Model of `pathlib.Path.is_relative_to` for normalized absolute paths:
`f` equals `parent` or lies strictly below it. -/
def isRelativeTo (parent f : String) : Bool :=
  f == parent || listPre (parent ++ "/").data f.data

/-- Helper for `pname`: the segment after the last `'/'`. -/
def pnameAux : List Char → List Char → List Char
  | acc, [] => acc
  | _, '/' :: cs => pnameAux [] cs
  | acc, c :: cs => pnameAux (acc ++ [c]) cs

/-- Model of `pathlib.Path.name`: the final path component. -/
def pname (f : String) : String := String.mk (pnameAux [] f.data)

/-- Model of `re.search(".", s)`: succeeds iff `s` has a character other
than a newline (`.` matches any character except `'\n'`).  This is the
autoselect pattern `dd3` compiles when `autoselect` is true. -/
def dotSearch (s : String) : Bool := s.data.any (fun c => !(c == '\n'))

/-! ### LuTable (`pydupe/lutable.py`)

`LuTable` is a Python dict from hash to a deque of paths, in insertion
order.  We model it as an association list; dict semantics keep the keys
distinct, but none of the definitions below assume that. -/

/-- Model of `LuTable`: insertion-ordered association list from hash to
its bucket of paths (the deque, in append order). -/
abbrev LuTable := List (String × List String)

/-- Errors raised by `LuTable.discard`: indexing a missing hash raises
`KeyError`, `deque.remove` on a missing path raises `ValueError`. -/
inductive LuErr where
  | keyError : LuErr
  | valueError : LuErr
deriving DecidableEq, Repr

namespace LuTable

/-- Model of `self._hashlu[h]` lookup, as an `Option`. -/
def find : LuTable → String → Option (List String)
  | [], _ => none
  | (k, b) :: rest, h => if k = h then some b else find rest h

/-- Model of `h in self._hashlu` / `self._hashlu.keys()` membership. -/
def hasKey (t : LuTable) (h : String) : Bool := (t.find h).isSome

/-- Model of `self._hashlu.keys()` as a list, in insertion order. -/
def keys (t : LuTable) : List String := t.map (·.1)

/-- Model of `LuTable.add`: create the bucket if the hash is new (the dict
appends the new key at the end), then `deque.append` the path — note the
source appends unconditionally, without a membership test. -/
def add : LuTable → String → String → LuTable
  | [], h, f => [(h, [f])]
  | (k, b) :: rest, h, f =>
      if k = h then (k, b ++ [f]) :: rest else (k, b) :: add rest h f

/-- Model of `deque.remove`: drop the first occurrence, `none` when the
element is absent (Python raises `ValueError`). -/
def bucketRemove : List String → String → Option (List String)
  | [], _ => none
  | x :: xs, f => if x = f then some xs else (bucketRemove xs f).map (x :: ·)

/-- Model of `LuTable.discard`: `self._hashlu[x[0]].remove(x[1])`, then the
key is popped when its deque becomes empty. -/
def discard : LuTable → String → String → Except LuErr LuTable
  | [], _, _ => .error .keyError
  | (k, b) :: rest, h, f =>
      if k = h then
        match bucketRemove b f with
        | none => .error .valueError
        | some b' => .ok (if b' = [] then rest else (k, b') :: rest)
      else (discard rest h f).map ((k, b) :: ·)

/-- Model of `LuTable.ldel`: delete every listed hash that is present. -/
def ldel (t : LuTable) (ks : List String) : LuTable :=
  t.filter (fun e => !(ks.contains e.1))

/-- Extend (or create) the bucket of `h` with the paths `ob`; the helper
behind `lextend` once `other[key]` has been read. -/
def extendBucket : LuTable → String → List String → LuTable
  | [], h, ob => [(h, ob)]
  | (k, b) :: rest, h, ob =>
      if k = h then (k, b ++ ob) :: rest else (k, b) :: extendBucket rest h ob

/-- Model of `LuTable.lextend`: create `self[key]` if missing and extend it
with `other[key]`; reading `other[key]` raises `KeyError` when absent. -/
def lextend (t other : LuTable) (h : String) : Option LuTable :=
  (other.find h).map (fun ob => extendBucket t h ob)

/-- Model of iteration `for hash, f in table` — all pairs in table order. -/
def pairs (t : LuTable) : List (String × String) :=
  (t.map (fun e => e.2.map (fun f => (e.1, f)))).flatten

/-- Model of `(hash, path) in table` (`LuTable.__contains__`). -/
def luContains (t : LuTable) (h f : String) : Prop :=
  ∃ b, t.find h = some b ∧ f ∈ b

instance (t : LuTable) (h f : String) : Decidable (luContains t h f) := by
  unfold luContains
  exact match t.find h with
  | none => .isFalse (by simp)
  | some b => decidable_of_iff (f ∈ b) (by simp)

/-- Model of `itertools.chain(*t.values())` — used via `chain_values`.
Modelled from the spec: `chain_values` is called by `dupetable.py` but is
missing from the `lutable.py` in the sources; per spec §4.3 the table
supports iteration over its pairs, and `chain_values` chains all buckets
in table order. -/
def chainValues (t : LuTable) : List String :=
  (t.map (·.2)).flatten

end LuTable

open LuTable

/-- Fold `add` over a list of pairs: how every table in `dd3` is filled. -/
def addAll (t : LuTable) (prs : List (String × String)) : LuTable :=
  prs.foldl (fun a pr => add a pr.1 pr.2) t

/-- Model of `t |= other` (`MutableSet.__ior__` calls `add` per pair). -/
def luIor (t other : LuTable) : LuTable := addAll t (pairs other)

/-! ### `check_and_autoselect` (`pydupe/dupetable.py` lines 110–136) -/

/-- One iteration of the `for hsh in sorted(old_deltable.keys())` loop of
`check_and_autoselect`, on state `(deltable, keeptable)`.  `none` models a
raised exception; the inner `for`/`break` is the first `f` of the sorted
original bucket whose name matches the autoselect pattern.  The final
`match`/`if` models `assert len(keeptable[hsh]) > 0`, which raises
`KeyError` when the discard emptied the bucket and dropped the key. -/
def casStep (apat : String → Bool) (oldDel : LuTable)
    (st : Option (LuTable × LuTable)) (hsh : String) : Option (LuTable × LuTable) :=
  match st with
  | none => none
  | some (deltable, keeptable) =>
    if (keeptable.find hsh).isSome then some (deltable, keeptable)
    else
      match oldDel.find hsh with
      | none => none
      | some ob =>
        match lextend keeptable deltable hsh with
        | none => none
        | some keeptable1 =>
          let deltable1 := deltable.ldel [hsh]
          match (sortStrs ob).find? (fun f => apat (pname f)) with
          | none => some (deltable1, keeptable1)
          | some f =>
            match discard keeptable1 hsh f with
            | .error _ => none
            | .ok keeptable2 =>
              match keeptable2.find hsh with
              | none => none
              | some b => if b.length > 0 then some (add deltable1 hsh f, keeptable2) else none

/-- Model of `check_and_autoselect`: iterate `casStep` over the sorted keys
of the (deep-copied) entry deltable. -/
def check_and_autoselect (apat : String → Bool) (deltable keeptable : LuTable) :
    Option (LuTable × LuTable) :=
  (sortStrs deltable.keys).foldl (casStep apat deltable) (some (deltable, keeptable))

/-! ### `dd3` (`pydupe/dupetable.py` lines 149–229) -/

/-- The common shape of the two partition loops in `dd3`: each pair is
added to the first table when the test holds, to the second otherwise. -/
def splitAdd (q : String × String → Bool) (prs : List (String × String))
    (st : LuTable × LuTable) : LuTable × LuTable :=
  prs.foldl
    (fun st pr => if q pr then (add st.1 pr.1 pr.2, st.2) else (st.1, add st.2 pr.1 pr.2))
    st

/-- First loop of `dd3`: split the pairs of `dupes` into
`(in_deldir_hashlu, outside_deldir_hashlu)` by `is_relative_to(deldir)`. -/
def scopeSplit (deldir : String) (dupes : LuTable) : LuTable × LuTable :=
  splitAdd (fun pr => isRelativeTo deldir pr.2) (pairs dupes) ([], [])

/-- `outside_deldir_hashlu` after `ldel` of the hashes that have no
representative in `in_deldir_hashlu`. -/
def outsidePruned (deldir : String) (dupes : LuTable) : LuTable :=
  let i := (scopeSplit deldir dupes).1
  let o := (scopeSplit deldir dupes).2
  o.ldel (o.keys.filter (fun k => !(i.hasKey k)))

/-- Second loop of `dd3`: split the pairs of `in_deldir_hashlu` into
`(match_pattern_hashlu, no_match_pattern_hashlu)` by
`pattern_compiled.search(f.name)`. -/
def patternSplit (pattern : String → Bool) (inTable : LuTable) : LuTable × LuTable :=
  splitAdd (fun pr => pattern (pname pr.2)) (pairs inTable) ([], [])

/-- The `keys_only_in_deltable` singleton pruning of the local-only branch
(`match_deletions` and not `dupes_global`). -/
def pruneSingles (dt kt : LuTable) : LuTable :=
  (dt.keys.filter (fun k => !(kt.hasKey k))).foldl
    (fun d k => if ((d.find k).getD []).length = 1 then d.ldel [k] else d) dt

/-- The `(deltable, keeptable)` pair `dd3` has built right before it calls
`check_and_autoselect`. -/
def dd3pre (dupes : LuTable) (deldir : String) (pattern : String → Bool)
    (match_deletions dupes_global : Bool) : LuTable × LuTable :=
  let ind := (scopeSplit deldir dupes).1
  let outs := outsidePruned deldir dupes
  let mt := (patternSplit pattern ind).1
  let nmt := (patternSplit pattern ind).2
  if match_deletions then
    if dupes_global then (mt, luIor nmt outs)
    else (pruneSingles mt nmt, nmt)
  else
    if dupes_global then (luIor nmt outs, mt) else (nmt, mt)

/-- The autoselect pattern `dd3` compiles: `"."` (matches any name with a
non-newline character) when autoselect is on, `"a^"` (matches nothing)
when it is off. -/
def autoselectApat (autoselect : Bool) : String → Bool :=
  if autoselect then dotSearch else fun _ => false

/-- Model of `dd3`: build the pre-tables, then run the autoselect safety
pass.  The result is `(deltable, keeptable)`; `none` models an exception
escaping `check_and_autoselect`. -/
def dd3 (dupes : LuTable) (deldir : String) (pattern : String → Bool)
    (match_deletions dupes_global autoselect : Bool) : Option (LuTable × LuTable) :=
  let dt := (dd3pre dupes deldir pattern match_deletions dupes_global).1
  let kt := (dd3pre dupes deldir pattern match_deletions dupes_global).2
  check_and_autoselect (autoselectApat autoselect) dt kt

/-- The bucket that folding `add` over `prs` contributes to hash `h`: the
second components of the pairs of `prs` whose hash is `h`, in order. -/
def bucketOf (prs : List (String × String)) (h : String) : List String :=
  (prs.filter (fun pr => pr.1 == h)).map (·.2)

/-- What one `check_and_autoselect` iteration does to a hash that is in
the delete table but not in the keep table, as a function of its original
delete bucket `b`: `none` models the iteration raising (the discard
emptied the keep bucket), otherwise `some (d, k)` where `d` is the new
delete-table entry for the hash (if any) and `k` its new keep bucket. -/
def casOutcome (apat : String → Bool) (b : List String) :
    Option (Option (List String) × List String) :=
  match (sortStrs b).find? (fun f => apat (pname f)) with
  | none => some (none, b)
  | some f =>
    match LuTable.bucketRemove b f with
    | none => none
    | some b' => if b' = [] then none else some (some [f], b')

/-- Insertion step for `sortByName`. -/
def insertLeByName (a : String) : List String → List String
  | [] => [a]
  | b :: bs => if strLe (pname a) (pname b) then a :: b :: bs else b :: insertLeByName a bs

/-- Sorting paths by their final component (the file NAME).  This is the
ordering the spec's autoselect wording describes ("sort the hash's
original delete-bucket paths by filename"); the source instead sorts the
`Path` objects themselves, i.e. by the full path string. -/
def sortByName : List String → List String
  | [] => []
  | x :: xs => insertLeByName x (sortByName xs)

/-! ### `data.py`: file-parameter records and `checkHash` -/

/-- Model of the `fparms` named tuple.  Timestamps are abstracted to
integers; only the `hash` field matters for the claims below. -/
structure fparms where
  filename : Option String := none
  hash : Option String := none
  size : Option Int := none
  inode : Option Int := none
  mtime : Option Int := none
  ctime : Option Int := none
deriving DecidableEq, Repr

/-- The `ValueError` raised by `checkHash`. -/
inductive DataErr where
  | valueError : DataErr
deriving DecidableEq, Repr

/-- A character accepted by the class `[a-f0-9]` under `re.IGNORECASE`. -/
def hexCI (c : Char) : Bool :=
  ('a' ≤ c && c ≤ 'f') || ('A' ≤ c && c ≤ 'F') || ('0' ≤ c && c ≤ '9')

/-- Python's `$` (no MULTILINE): matches at the end of the string or just
before a single trailing newline. -/
def matchDollar : List Char → Bool
  | [] => true
  | [c] => c == '\n'
  | _ => false

/-- Matcher for `.+$`: one or more non-newline characters, then `$`. -/
def matchDotPlusDollar : List Char → Bool
  | [] => false
  | c :: rest => !(c == '\n') && (matchDollar rest || matchDotPlusDollar rest)

/-- Matcher for `(:.+)?$`: either `$` directly, or a colon followed by
`.+$`. -/
def matchSuffix (cs : List Char) : Bool :=
  matchDollar cs ||
    (match cs with
     | c :: rest => c == ':' && matchDotPlusDollar rest
     | [] => false)

/-- Consume exactly `n` characters of the class `[a-f0-9]` (IGNORECASE),
returning the remainder. -/
def matchHexN : Nat → List Char → Option (List Char)
  | 0, cs => some cs
  | _ + 1, [] => none
  | n + 1, c :: cs => if hexCI c then matchHexN n cs else none

/-- Model of `valid_sha256.match(s)` for the compiled pattern
`^[a-f0-9]{64}(:.+)?$` with `re.IGNORECASE`. -/
def matchSha (s : String) : Bool :=
  match matchHexN 64 s.data with
  | none => false
  | some rest => matchSuffix rest

/-- Model of `checkHash`: raise `ValueError` iff the hash field is truthy
(present and non-empty) and the regex does not match. -/
def checkHash (fp : fparms) : Except DataErr Unit :=
  match fp.hash with
  | none => .ok ()
  | some s => if s = "" then .ok () else if matchSha s then .ok () else .error .valueError

/-- The digest shape claim C9 asserts: exactly 64 characters, all
lowercase hexadecimal. -/
def isLower64Hex (s : String) : Bool :=
  s.data.length == 64 &&
    s.data.all (fun c => ('a' ≤ c && c ≤ 'f') || ('0' ≤ c && c ≤ '9'))

/-- The structural description of what may follow the 64 hex digits for
`valid_sha256.match` to succeed: nothing, one trailing newline, or a
colon followed by a nonempty newline-free run, itself optionally followed
by one trailing newline. -/
def hashSuffixOk (r : List Char) : Prop :=
  r = [] ∨ r = ['\n'] ∨
    ∃ u, u ≠ [] ∧ (∀ c ∈ u, c ≠ '\n') ∧ (r = ':' :: u ∨ r = ':' :: (u ++ ['\n']))

/-! ### `Dupetable.validate` and `Dupetable.delete`

The live filesystem is modelled as a function from path to the results of
the three `pathlib` probes the source makes (`exists()`, `is_dir()`,
`is_symlink()`, each with Python's symlink-following behaviour baked into
the returned booleans). -/

/-- Results of the filesystem probes for a single path. -/
structure FStat where
  fexists : Bool
  isDir : Bool
  isSymlink : Bool
deriving DecidableEq, Repr

/-- The exceptions `Dupetable.validate` can raise. -/
inductive DupeErr where
  | dupeFileNotFound (f : String)
  | dupeIsDirectory (f : String)
  | dupeIsSymLink (f : String)
  | dupeNotValidated
deriving DecidableEq, Repr

/-- The per-file checks of `Dupetable.validate`, in source order. -/
def checkFile (fs : String → FStat) (f : String) : Except DupeErr Unit :=
  if !(fs f).fexists then .error (.dupeFileNotFound f)
  else if (fs f).isDir then .error (.dupeIsDirectory f)
  else if (fs f).isSymlink then .error (.dupeIsSymLink f)
  else .ok ()

/-- Run `checkFile` over a list of paths, raising the first error. -/
def validateFiles (fs : String → FStat) : List String → Except DupeErr Unit
  | [] => .ok ()
  | f :: rest =>
      match checkFile fs f with
      | .error e => .error e
      | .ok _ => validateFiles fs rest

/-- The overlap test of `Dupetable.validate`: some hash common to both
tables has a path in both buckets. -/
def overlapExists (kt dt : LuTable) : Bool :=
  kt.keys.any (fun k =>
    dt.hasKey k && ((kt.find k).getD []).any (fun f => ((dt.find k).getD []).contains f))

/-- Model of `Dupetable.validate`: first the keep/delete overlap test,
then existence / directory / symlink checks over the chained values of
the keep table followed by the delete table. -/
def validate (fs : String → FStat) (kt dt : LuTable) : Except DupeErr Unit :=
  if overlapExists kt dt then .error .dupeNotValidated
  else validateFiles fs (chainValues kt ++ chainValues dt)

/-- Model of `Dupetable.delete`: the early return when there is nothing
to delete and no dedupe was run, then validation, then the moves.  The
result is the list of files actually moved/unlinked (each also removed
from the index database) together with the exception, if any.  An error
from `validate` propagates before the move loop starts, so the move list
is empty in that case. -/
def deleteOp (fs : String → FStat) (deduped : Bool) (kt dt : LuTable) :
    List String × Option DupeErr :=
  if (pairs dt).length = 0 ∧ deduped = false then ([], none)
  else
    match validate fs kt dt with
    | .error e => ([], some e)
    | .ok _ => (chainValues dt, none)

/-! ## Lemma layer: the basic table operations -/

namespace LuTable

theorem find_add_self (h f : String) : ∀ t : LuTable,
    (add t h f).find h = some (((t.find h).getD []) ++ [f])
  | [] => by simp [add, find]
  | (k, b) :: rest => by
      by_cases hk : k = h
      · subst hk; simp [add, find]
      · simp [add, find, hk, find_add_self h f rest]

theorem find_add_ne (h f h' : String) (hne : h' ≠ h) : ∀ t : LuTable,
    (add t h f).find h' = t.find h'
  | [] => by simp [add, find, Ne.symm hne]
  | (k, b) :: rest => by
      by_cases hk : k = h
      · subst hk; simp [add, find, Ne.symm hne]
      · by_cases hh : k = h'
        · subst hh; simp [add, find, hk]
        · simp [add, find, hk, hh, find_add_ne h f h' hne rest]

theorem find_extendBucket_self (h : String) (ob : List String) : ∀ t : LuTable,
    (extendBucket t h ob).find h = some (((t.find h).getD []) ++ ob)
  | [] => by simp [extendBucket, find]
  | (k, b) :: rest => by
      by_cases hk : k = h
      · subst hk; simp [extendBucket, find]
      · simp [extendBucket, find, hk, find_extendBucket_self h ob rest]

theorem find_extendBucket_ne (h : String) (ob : List String) (h' : String)
    (hne : h' ≠ h) : ∀ t : LuTable, (extendBucket t h ob).find h' = t.find h'
  | [] => by simp [extendBucket, find, Ne.symm hne]
  | (k, b) :: rest => by
      by_cases hk : k = h
      · subst hk; simp [extendBucket, find, Ne.symm hne]
      · by_cases hh : k = h'
        · subst hh; simp [extendBucket, find, hk]
        · simp [extendBucket, find, hk, hh, find_extendBucket_ne h ob h' hne rest]

theorem ldel_cons (k : String) (b : List String) (rest : LuTable) (ks : List String) :
    ldel ((k, b) :: rest) ks = if k ∈ ks then ldel rest ks else (k, b) :: ldel rest ks := by
  by_cases hmem : k ∈ ks <;> simp [ldel, List.filter_cons, hmem]

theorem find_ldel (ks : List String) (h : String) : ∀ t : LuTable,
    (ldel t ks).find h = if h ∈ ks then none else t.find h
  | [] => by simp [ldel, find]
  | (k, b) :: rest => by
      rw [ldel_cons]
      by_cases hmem : k ∈ ks
      · rw [if_pos hmem, find_ldel ks h rest]
        by_cases hk : k = h
        · subst hk; simp [find, hmem]
        · by_cases hin : h ∈ ks <;> simp [find, hk, hin]
      · rw [if_neg hmem]
        by_cases hk : k = h
        · subst hk; simp [find, hmem]
        · by_cases hin : h ∈ ks <;> simp [find, hk, hin, find_ldel ks h rest]

theorem mem_keys_iff (h : String) : ∀ t : LuTable, h ∈ t.keys ↔ (t.find h).isSome
  | [] => by simp [keys, find]
  | (k, b) :: rest => by
      by_cases hk : k = h
      · subst hk; simp [keys, find]
      · simp [keys, find, hk, Ne.symm hk, ← mem_keys_iff h rest]

theorem hasKey_iff (t : LuTable) (h : String) : t.hasKey h = true ↔ (t.find h).isSome := by
  simp [hasKey]

theorem bucketRemove_eq_none_iff (f : String) : ∀ b : List String,
    bucketRemove b f = none ↔ f ∉ b
  | [] => by simp [bucketRemove]
  | x :: xs => by
      by_cases hx : x = f
      · subst hx; simp [bucketRemove]
      · simp [bucketRemove, hx, Ne.symm hx, Option.map_eq_none',
          bucketRemove_eq_none_iff f xs]

theorem bucketRemove_perm (f : String) : ∀ (b b' : List String),
    bucketRemove b f = some b' → b.Perm (f :: b')
  | [], _, hsm => by simp [bucketRemove] at hsm
  | x :: xs, b', hsm => by
      by_cases hx : x = f
      · subst hx
        simp [bucketRemove] at hsm
        subst hsm
        exact List.Perm.refl _
      · simp [bucketRemove, hx, Option.map_eq_some'] at hsm
        obtain ⟨ys, hys, rfl⟩ := hsm
        exact ((bucketRemove_perm f xs ys hys).cons x).trans (List.Perm.swap f x ys)

theorem bucketRemove_not_mem (f : String) (b b' : List String) (hnd : b.Nodup)
    (hsm : bucketRemove b f = some b') : f ∉ b' ∧ b'.Nodup := by
  have hperm := bucketRemove_perm f b b' hsm
  have : (f :: b').Nodup := hperm.nodup_iff.mp hnd
  exact ⟨(List.nodup_cons.mp this).1, (List.nodup_cons.mp this).2⟩

theorem discard_of_find_none (h f : String) : ∀ t : LuTable,
    t.find h = none → discard t h f = .error .keyError
  | [], _ => by simp [discard]
  | (k, b) :: rest, hf => by
      by_cases hk : k = h
      · subst hk; simp [find] at hf
      · simp [find, hk] at hf
        simp [discard, hk, discard_of_find_none h f rest hf, Except.map]

theorem discard_of_not_mem (h f : String) : ∀ (t : LuTable) (b : List String),
    t.find h = some b → f ∉ b → discard t h f = .error .valueError
  | [], b, hf, _ => by simp [find] at hf
  | (k, bb) :: rest, b, hf, hnm => by
      by_cases hk : k = h
      · subst hk
        simp [find] at hf
        subst hf
        simp [discard, (bucketRemove_eq_none_iff f _).mpr hnm]
      · simp [find, hk] at hf
        simp [discard, hk, discard_of_not_mem h f rest b hf hnm, Except.map]

theorem discard_ok (h f : String) : ∀ (t : LuTable) (b b' : List String),
    t.keys.Nodup → t.find h = some b → bucketRemove b f = some b' →
    ∃ t', discard t h f = .ok t' ∧
      t'.find h = (if b' = [] then none else some b') ∧
      (∀ h', h' ≠ h → t'.find h' = t.find h') ∧
      (∀ x, x ∈ t'.keys → x ∈ t.keys) ∧ t'.keys.Nodup
  | [], b, b', _, hf, _ => by simp [find] at hf
  | (k, bb) :: rest, b, b', hnd, hf, hbr => by
      have hnd2 : (k :: keys rest).Nodup := hnd
      have hnd' : (keys rest).Nodup := (List.nodup_cons.mp hnd2).2
      have hkmem : k ∉ keys rest := (List.nodup_cons.mp hnd2).1
      by_cases hk : k = h
      · subst hk
        simp [find] at hf
        subst hf
        refine ⟨if b' = [] then rest else (k, b') :: rest, by simp [discard, hbr], ?_, ?_, ?_, ?_⟩
        · by_cases hb : b' = []
          · simp [hb]
            exact Option.not_isSome_iff_eq_none.mp
              (fun hs => hkmem ((mem_keys_iff k rest).mpr hs))
          · simp [hb, find]
        · intro h' hne
          by_cases hb : b' = [] <;> simp [hb, find, Ne.symm hne]
        · intro x hx
          by_cases hb : b' = []
          · rw [if_pos hb] at hx
            exact List.mem_cons.mpr (Or.inr hx)
          · rw [if_neg hb] at hx
            have hx' : x ∈ k :: keys rest := hx
            exact hx'
        · by_cases hb : b' = []
          · rw [if_pos hb]; exact hnd'
          · rw [if_neg hb]
            exact List.nodup_cons.mpr ⟨hkmem, hnd'⟩
      · simp [find, hk] at hf
        obtain ⟨t', ht', hfind, hother, hsub, hnodup⟩ :=
          discard_ok h f rest b b' hnd' hf hbr
        refine ⟨(k, bb) :: t', by simp [discard, hk, ht', Except.map], ?_, ?_, ?_, ?_⟩
        · simp [find, hk]
          exact hfind
        · intro h' hne
          by_cases hkh : k = h' <;> simp [find, hkh, hother h' hne]
        · intro x hx
          have hx' : x ∈ k :: keys t' := hx
          rcases List.mem_cons.mp hx' with hx' | hx'
          · exact List.mem_cons.mpr (Or.inl hx')
          · exact List.mem_cons.mpr (Or.inr (hsub x hx'))
        · exact List.nodup_cons.mpr ⟨fun hmem => hkmem (hsub k hmem), hnodup⟩

theorem keys_add (h f : String) : ∀ t : LuTable,
    (add t h f).keys = if (t.find h).isSome then t.keys else t.keys ++ [h]
  | [] => by simp [add, find, keys]
  | (k, b) :: rest => by
      by_cases hk : k = h
      · subst hk; simp [add, find, keys]
      · have hadd : add ((k, b) :: rest) h f = (k, b) :: add rest h f := by
          simp [add, hk]
        have hfind : find ((k, b) :: rest) h = find rest h := by simp [find, hk]
        rw [hadd, hfind]
        show k :: keys (add rest h f) =
          if (find rest h).isSome then k :: keys rest else (k :: keys rest) ++ [h]
        rw [keys_add h f rest]
        by_cases hs : (find rest h).isSome <;> simp [hs]

theorem keysNodup_add (t : LuTable) (h f : String) (hnd : t.keys.Nodup) :
    (add t h f).keys.Nodup := by
  rw [keys_add]
  by_cases hs : (t.find h).isSome
  · simpa [hs]
  · simp [hs, List.nodup_append, hnd]
    exact fun hmem => hs ((mem_keys_iff h t).mp hmem)

theorem keys_extendBucket (h : String) (ob : List String) : ∀ t : LuTable,
    (extendBucket t h ob).keys = if (t.find h).isSome then t.keys else t.keys ++ [h]
  | [] => by simp [extendBucket, find, keys]
  | (k, b) :: rest => by
      by_cases hk : k = h
      · subst hk; simp [extendBucket, find, keys]
      · have hext : extendBucket ((k, b) :: rest) h ob = (k, b) :: extendBucket rest h ob := by
          simp [extendBucket, hk]
        have hfind : find ((k, b) :: rest) h = find rest h := by simp [find, hk]
        rw [hext, hfind]
        show k :: keys (extendBucket rest h ob) =
          if (find rest h).isSome then k :: keys rest else (k :: keys rest) ++ [h]
        rw [keys_extendBucket h ob rest]
        by_cases hs : (find rest h).isSome <;> simp [hs]

theorem keysNodup_extendBucket (t : LuTable) (h : String) (ob : List String)
    (hnd : t.keys.Nodup) : (extendBucket t h ob).keys.Nodup := by
  rw [keys_extendBucket]
  by_cases hs : (t.find h).isSome
  · simpa [hs]
  · simp [hs, List.nodup_append, hnd]
    exact fun hmem => hs ((mem_keys_iff h t).mp hmem)

theorem keys_ldel_sublist (t : LuTable) (ks : List String) :
    (ldel t ks).keys.Sublist t.keys :=
  List.Sublist.map Prod.fst (List.filter_sublist t)

theorem keysNodup_ldel (t : LuTable) (ks : List String) (hnd : t.keys.Nodup) :
    (ldel t ks).keys.Nodup :=
  hnd.sublist (keys_ldel_sublist t ks)

theorem pairs_cons (k : String) (b : List String) (rest : LuTable) :
    pairs ((k, b) :: rest) = b.map (fun f => (k, f)) ++ pairs rest := by
  simp [pairs]

theorem pairs_add (h f : String) : ∀ t : LuTable,
    (pairs (add t h f)).Perm (pairs t ++ [(h, f)])
  | [] => by simp [add, pairs]
  | (k, b) :: rest => by
      by_cases hk : k = h
      · subst hk
        have hadd : add ((k, b) :: rest) k f = (k, b ++ [f]) :: rest := by simp [add]
        rw [hadd, pairs_cons, pairs_cons]
        have h1 : (b ++ [f]).map (fun g => (k, g)) ++ pairs rest
            = b.map (fun g => (k, g)) ++ ([(k, f)] ++ pairs rest) := by simp
        rw [h1, List.append_assoc]
        exact List.Perm.append_left _ List.perm_append_comm
      · have hadd : add ((k, b) :: rest) h f = (k, b) :: add rest h f := by simp [add, hk]
        rw [hadd, pairs_cons, pairs_cons, List.append_assoc]
        exact List.Perm.append_left _ (pairs_add h f rest)

theorem pairs_addAll : ∀ (prs : List (String × String)) (t : LuTable),
    (pairs (addAll t prs)).Perm (pairs t ++ prs)
  | [], t => by simp [addAll]
  | pr :: prs, t => by
      have hstep : addAll t (pr :: prs) = addAll (add t pr.1 pr.2) prs := by
        simp [addAll]
      rw [hstep]
      refine (pairs_addAll prs _).trans ?_
      refine ((pairs_add pr.1 pr.2 t).append_right prs).trans ?_
      have heq : (pairs t ++ [(pr.1, pr.2)]) ++ prs = pairs t ++ pr :: prs := by simp
      rw [heq]

theorem pairs_sublist {t1 t2 : LuTable} (hs : t1.Sublist t2) :
    (pairs t1).Sublist (pairs t2) := by
  induction hs with
  | slnil => simp
  | cons e _ ih =>
      obtain ⟨k, b⟩ := e
      rw [pairs_cons]
      exact ih.trans (List.sublist_append_right _ _)
  | cons₂ e _ ih =>
      obtain ⟨k, b⟩ := e
      rw [pairs_cons, pairs_cons]
      exact ih.append_left _

theorem bucket_pairs_sublist : ∀ (t : LuTable) (h : String) (b : List String),
    t.find h = some b → (b.map (fun f => (h, f))).Sublist (pairs t)
  | [], h, b, hf => by simp [find] at hf
  | (k, bb) :: rest, h, b, hf => by
      by_cases hk : k = h
      · subst hk
        simp [find] at hf
        subst hf
        rw [pairs_cons]
        exact List.sublist_append_left _ _
      · simp [find, hk] at hf
        rw [pairs_cons]
        exact (bucket_pairs_sublist rest h b hf).trans (List.sublist_append_right _ _)

theorem bucket_nodup (t : LuTable) (h : String) (b : List String)
    (hnd : (pairs t).Nodup) (hf : t.find h = some b) : b.Nodup :=
  (hnd.sublist (bucket_pairs_sublist t h b hf)).of_map _

/-- All buckets stored in the table are nonempty — true of every table the
algorithms build, since buckets are only created by `add` or from other
nonempty buckets. -/
def NonemptyBuckets (t : LuTable) : Prop := ∀ h b, t.find h = some b → b ≠ []

end LuTable

theorem bucketOf_cons (pr : String × String) (prs : List (String × String)) (h : String) :
    bucketOf (pr :: prs) h =
      if pr.1 = h then pr.2 :: bucketOf prs h else bucketOf prs h := by
  by_cases hk : pr.1 = h <;> simp [bucketOf, List.filter_cons, hk]

theorem mem_bucketOf (prs : List (String × String)) (h f : String) :
    f ∈ bucketOf prs h ↔ (h, f) ∈ prs := by
  unfold bucketOf
  rw [List.mem_map]
  constructor
  · rintro ⟨pr, hpr, rfl⟩
    obtain ⟨hmem, hbeq⟩ := List.mem_filter.mp hpr
    have h1 : pr.1 = h := by simpa using hbeq
    have hpr' : pr = (h, pr.2) := by
      rw [← h1]
    rw [← hpr']
    exact hmem
  · intro hmem
    exact ⟨(h, f), List.mem_filter.mpr ⟨hmem, by simp⟩, rfl⟩

theorem addAll_cons (t : LuTable) (pr : String × String) (prs : List (String × String)) :
    addAll t (pr :: prs) = addAll (add t pr.1 pr.2) prs := by
  simp [addAll]

theorem find_addAll_some : ∀ (prs : List (String × String)) (t : LuTable) (h : String)
    (b : List String), t.find h = some b →
    (addAll t prs).find h = some (b ++ bucketOf prs h)
  | [], t, h, b, hf => by simpa [addAll, bucketOf] using hf
  | pr :: prs, t, h, b, hf => by
      rw [addAll_cons, bucketOf_cons]
      by_cases hk : pr.1 = h
      · subst hk
        have hstep : (add t pr.1 pr.2).find pr.1 = some (b ++ [pr.2]) := by
          rw [find_add_self pr.1 pr.2 t, hf]
          rfl
        rw [find_addAll_some prs _ _ _ hstep]
        simp
      · have hstep : (add t pr.1 pr.2).find h = some b := by
          rw [find_add_ne pr.1 pr.2 h (fun e => hk e.symm)]
          exact hf
        rw [find_addAll_some prs _ _ _ hstep]
        simp [hk]

theorem find_addAll_none : ∀ (prs : List (String × String)) (t : LuTable) (h : String),
    t.find h = none →
    (addAll t prs).find h =
      (if bucketOf prs h = [] then none else some (bucketOf prs h))
  | [], t, h, hf => by simpa [addAll, bucketOf] using hf
  | pr :: prs, t, h, hf => by
      rw [addAll_cons, bucketOf_cons]
      by_cases hk : pr.1 = h
      · subst hk
        have hstep : (add t pr.1 pr.2).find pr.1 = some [pr.2] := by
          rw [find_add_self pr.1 pr.2 t, hf]
          rfl
        rw [find_addAll_some prs _ _ _ hstep]
        simp
      · have hstep : (add t pr.1 pr.2).find h = none := by
          rw [find_add_ne pr.1 pr.2 h (fun e => hk e.symm)]
          exact hf
        rw [find_addAll_none prs _ _ hstep]
        simp [hk]

theorem contains_addAll (t : LuTable) (prs : List (String × String)) (h f : String) :
    luContains (addAll t prs) h f ↔ luContains t h f ∨ (h, f) ∈ prs := by
  unfold luContains
  rcases hf : t.find h with _ | b
  · rw [find_addAll_none prs t h hf]
    by_cases hb : bucketOf prs h = []
    · simp [hb]
      intro hmem
      have : f ∈ bucketOf prs h := (mem_bucketOf prs h f).mpr hmem
      simp [hb] at this
    · simp [hb, ← mem_bucketOf prs h f]
  · rw [find_addAll_some prs t h b hf]
    simp [← mem_bucketOf prs h f]

theorem keysNodup_addAll : ∀ (prs : List (String × String)) (t : LuTable),
    (keys t).Nodup → (keys (addAll t prs)).Nodup
  | [], t, hnd => hnd
  | pr :: prs, t, hnd => by
      rw [addAll_cons]
      exact keysNodup_addAll prs _ (keysNodup_add t pr.1 pr.2 hnd)

theorem nonemptyBuckets_addAll (t : LuTable) (prs : List (String × String))
    (hne : NonemptyBuckets t) : NonemptyBuckets (addAll t prs) := by
  intro h b hf
  rcases ht : t.find h with _ | b0
  · rw [find_addAll_none prs t h ht] at hf
    by_cases hb : bucketOf prs h = []
    · simp [hb] at hf
    · simp [hb] at hf
      rw [hf] at hb
      exact hb
  · rw [find_addAll_some prs t h b0 ht] at hf
    have hb0 := hne h b0 ht
    simp at hf
    rw [← hf]
    simp [hb0]

theorem nonemptyBuckets_ldel (t : LuTable) (ks : List String)
    (hne : NonemptyBuckets t) : NonemptyBuckets (ldel t ks) := by
  intro h b hf
  rw [find_ldel] at hf
  by_cases hk : h ∈ ks
  · simp [hk] at hf
  · exact hne h b (by simpa [hk] using hf)

theorem splitAdd_eq (q : String × String → Bool) :
    ∀ (prs : List (String × String)) (t1 t2 : LuTable),
    splitAdd q prs (t1, t2) =
      (addAll t1 (prs.filter q), addAll t2 (prs.filter (fun pr => !(q pr))))
  | [], t1, t2 => by simp [splitAdd, addAll]
  | pr :: prs, t1, t2 => by
      cases hq : q pr
      · have hstep : splitAdd q (pr :: prs) (t1, t2) = splitAdd q prs (t1, add t2 pr.1 pr.2) := by
          simp [splitAdd, hq]
        rw [hstep, splitAdd_eq q prs]
        simp [List.filter_cons, hq, addAll_cons]
      · have hstep : splitAdd q (pr :: prs) (t1, t2) = splitAdd q prs (add t1 pr.1 pr.2, t2) := by
          simp [splitAdd, hq]
        rw [hstep, splitAdd_eq q prs]
        simp [List.filter_cons, hq, addAll_cons]

theorem insertLe_perm (a : String) : ∀ l : List String, (insertLe a l).Perm (a :: l)
  | [] => by simp [insertLe]
  | b :: bs => by
      cases hle : strLe a b
      · have : insertLe a (b :: bs) = b :: insertLe a bs := by simp [insertLe, hle]
        rw [this]
        exact ((insertLe_perm a bs).cons b).trans (List.Perm.swap a b bs)
      · simp [insertLe, hle]

theorem sortStrs_perm : ∀ l : List String, (sortStrs l).Perm l
  | [] => List.Perm.refl _
  | x :: xs => (insertLe_perm x (sortStrs xs)).trans ((sortStrs_perm xs).cons x)

theorem mem_sortStrs (l : List String) (x : String) : x ∈ sortStrs l ↔ x ∈ l :=
  (sortStrs_perm l).mem_iff

theorem nodup_sortStrs (l : List String) (hnd : l.Nodup) : (sortStrs l).Nodup :=
  (sortStrs_perm l).nodup_iff.mpr hnd

theorem pruneFold_find : ∀ (ks : List String) (d : LuTable) (h : String), ks.Nodup →
    ((ks.foldl (fun d k => if ((d.find k).getD []).length = 1 then d.ldel [k] else d) d).find h)
      = if h ∈ ks ∧ ((d.find h).getD []).length = 1 then none else d.find h
  | [], d, h, _ => by simp
  | k :: ks, d, h, hnd => by
      have hknot : k ∉ ks := (List.nodup_cons.mp hnd).1
      have hnd' : ks.Nodup := (List.nodup_cons.mp hnd).2
      have hfold : ((k :: ks).foldl
            (fun d k => if ((d.find k).getD []).length = 1 then d.ldel [k] else d) d)
          = (ks.foldl (fun d k => if ((d.find k).getD []).length = 1 then d.ldel [k] else d)
              (if ((d.find k).getD []).length = 1 then d.ldel [k] else d)) := by
        simp
      rw [hfold, pruneFold_find ks _ h hnd']
      by_cases hh : h = k
      · subst hh
        by_cases hlen : ((d.find h).getD []).length = 1
        · simp [hlen, find_ldel, hknot]
        · simp [hlen, hknot]
      · have hfind : (if ((d.find k).getD []).length = 1 then d.ldel [k] else d).find h
            = d.find h := by
          by_cases hlen : ((d.find k).getD []).length = 1 <;> simp [hlen, find_ldel, hh]
        rw [hfind]
        simp [hh]

theorem foldl_casStep_none (apat : String → Bool) (oldDel : LuTable) :
    ∀ ks : List String, ks.foldl (casStep apat oldDel) none = none
  | [] => rfl
  | _ :: ks => foldl_casStep_none apat oldDel ks

theorem casStep_skip (apat : String → Bool) (oldDel dt kt : LuTable) (k : String)
    (hs : (kt.find k).isSome) : casStep apat oldDel (some (dt, kt)) k = some (dt, kt) := by
  simp [casStep, hs]

theorem casStep_move (apat : String → Bool) (oldDel dt kt : LuTable) (k : String)
    (b : List String) (hknone : kt.find k = none) (hold : oldDel.find k = some b)
    (hdt : dt.find k = some b) (hknd : (keys kt).Nodup) :
    (casOutcome apat b = none → casStep apat oldDel (some (dt, kt)) k = none) ∧
    (∀ pr, casOutcome apat b = some pr →
      ∃ dt1 kt1, casStep apat oldDel (some (dt, kt)) k = some (dt1, kt1) ∧
        dt1.find k = pr.1 ∧ kt1.find k = some pr.2 ∧
        (∀ h, h ≠ k → dt1.find h = dt.find h ∧ kt1.find h = kt.find h) ∧
        (keys kt1).Nodup) := by
  have hlx : lextend kt dt k = some (extendBucket kt k b) := by simp [lextend, hdt]
  have hkt1self : (extendBucket kt k b).find k = some b := by
    rw [find_extendBucket_self k b kt, hknone]
    rfl
  have hkt1nd : (keys (extendBucket kt k b)).Nodup := keysNodup_extendBucket kt k b hknd
  rcases hfind : (sortStrs b).find? (fun f => apat (pname f)) with _ | f
  · -- no file matches the autoselect pattern: everything stays in keep
    have hoc : casOutcome apat b = some (none, b) := by
      simp [casOutcome, hfind]
    have hstep : casStep apat oldDel (some (dt, kt)) k
        = some (dt.ldel [k], extendBucket kt k b) := by
      simp [casStep, hknone, hold, hlx, hfind]
    refine ⟨fun hn => (by rw [hoc] at hn; cases hn), fun pr hsome => ?_⟩
    rw [hoc] at hsome
    injection hsome with hpair
    subst hpair
    refine ⟨dt.ldel [k], extendBucket kt k b, hstep, ?_, hkt1self, ?_, hkt1nd⟩
    · rw [find_ldel]
      simp
    · intro h hne
      constructor
      · rw [find_ldel]
        simp [hne]
      · exact find_extendBucket_ne k b h hne kt
  · -- `f` is moved back to the delete table
    have hfmem : f ∈ b := by
      have := List.mem_of_find?_eq_some hfind
      exact (mem_sortStrs b f).mp this
    have hbr : ∃ b', bucketRemove b f = some b' := by
      rcases hb : bucketRemove b f with _ | b'
      · exact absurd ((bucketRemove_eq_none_iff f b).mp hb) (by simp [hfmem])
      · exact ⟨b', rfl⟩
    obtain ⟨b', hbr⟩ := hbr
    obtain ⟨kt2, hdis, hkt2self, hkt2other, hkt2sub, hkt2nd⟩ :=
      discard_ok k f (extendBucket kt k b) b b' hkt1nd hkt1self hbr
    by_cases hb' : b' = []
    · -- the discard empties the keep bucket: the assert raises KeyError
      have hoc : casOutcome apat b = none := by
        simp [casOutcome, hfind, hbr, hb']
      have hstep : casStep apat oldDel (some (dt, kt)) k = none := by
        simp [casStep, hknone, hold, hlx, hfind, hdis, hkt2self, hb']
      exact ⟨fun _ => hstep, fun pr hsome => by rw [hoc] at hsome; cases hsome⟩
    · have hoc : casOutcome apat b = some (some [f], b') := by
        simp [casOutcome, hfind, hbr, hb']
      have hlen : b'.length > 0 := List.length_pos.mpr hb'
      have hstep : casStep apat oldDel (some (dt, kt)) k
          = some (add (dt.ldel [k]) k f, kt2) := by
        simp [casStep, hknone, hold, hlx, hfind, hdis, hkt2self, hb', hlen]
      refine ⟨fun hn => (by rw [hoc] at hn; cases hn), fun pr hsome => ?_⟩
      rw [hoc] at hsome
      injection hsome with hpair
      subst hpair
      refine ⟨add (dt.ldel [k]) k f, kt2, hstep, ?_, ?_, ?_, hkt2nd⟩
      · rw [find_add_self k f (dt.ldel [k]), find_ldel]
        simp
      · rw [hkt2self]
        simp [hb']
      · intro h hne
        constructor
        · rw [find_add_ne k f h hne, find_ldel]
          simp [hne]
        · rw [hkt2other h hne]
          exact find_extendBucket_ne k b h hne kt

theorem casFold_char (apat : String → Bool) (dt0 : LuTable) :
    ∀ (ks : List String) (dt kt dt' kt' : LuTable),
    ks.Nodup →
    (∀ k ∈ ks, dt.find k = dt0.find k) →
    (∀ k ∈ ks, (dt0.find k).isSome) →
    (keys kt).Nodup →
    ks.foldl (casStep apat dt0) (some (dt, kt)) = some (dt', kt') →
    ∀ h,
      ((h ∉ ks ∨ (kt.find h).isSome) → dt'.find h = dt.find h ∧ kt'.find h = kt.find h) ∧
      (h ∈ ks → kt.find h = none → ∀ b, dt0.find h = some b →
        ∃ pr, casOutcome apat b = some pr ∧ dt'.find h = pr.1 ∧ kt'.find h = some pr.2)
  | [], dt, kt, dt', kt', _, _, _, _, hfold, h => by
      simp at hfold
      obtain ⟨h1, h2⟩ := hfold
      subst h1
      subst h2
      exact ⟨fun _ => ⟨rfl, rfl⟩, fun hmem => absurd hmem (List.not_mem_nil h)⟩
  | k :: ks, dt, kt, dt', kt', hnd, H2, H3, hktnd, hfold, h => by
      have hknotks : k ∉ ks := (List.nodup_cons.mp hnd).1
      have hnd' : ks.Nodup := (List.nodup_cons.mp hnd).2
      rw [List.foldl_cons] at hfold
      rcases hkt : kt.find k with _ | kb0
      · -- `k` is missing from the keep table: the bucket is moved over
        obtain ⟨b, hold⟩ := Option.isSome_iff_exists.mp (H3 k (List.mem_cons_self k ks))
        have hdt : dt.find k = some b := by rw [H2 k (List.mem_cons_self k ks), hold]
        have hmove := casStep_move apat dt0 dt kt k b hkt hold hdt hktnd
        rcases hoc : casOutcome apat b with _ | pr
        · rw [hmove.1 hoc, foldl_casStep_none] at hfold
          cases hfold
        · obtain ⟨dt1, kt1, hstep, hdt1k, hkt1k, hother, hkt1nd⟩ := hmove.2 pr hoc
          rw [hstep] at hfold
          have IH := casFold_char apat dt0 ks dt1 kt1 dt' kt' hnd'
            (fun k' hk' => by
              rw [(hother k' (fun e => hknotks (e ▸ hk'))).1]
              exact H2 k' (List.mem_cons_of_mem k hk'))
            (fun k' hk' => H3 k' (List.mem_cons_of_mem k hk')) hkt1nd hfold
          refine ⟨?_, ?_⟩
          · rintro (hnmem | hsome)
            · have hne : h ≠ k := fun e => hnmem (e ▸ List.mem_cons_self k ks)
              have hnm' : h ∉ ks := fun hx => hnmem (List.mem_cons_of_mem k hx)
              obtain ⟨e1, e2⟩ := (IH h).1 (Or.inl hnm')
              rw [e1, e2, (hother h hne).1, (hother h hne).2]
              exact ⟨rfl, rfl⟩
            · have hne : h ≠ k := by
                intro e
                rw [e, hkt] at hsome
                cases hsome
              have hktse : (kt1.find h).isSome := by
                rw [(hother h hne).2]
                exact hsome
              obtain ⟨e1, e2⟩ := (IH h).1 (Or.inr hktse)
              rw [e1, e2, (hother h hne).1, (hother h hne).2]
              exact ⟨rfl, rfl⟩
          · intro hmem hnone b0 hb0
            rcases List.mem_cons.mp hmem with rfl | hmem'
            · have hbb : b = b0 := by
                injection hold.symm.trans hb0
              subst hbb
              refine ⟨pr, hoc, ?_, ?_⟩
              · rw [((IH h).1 (Or.inl hknotks)).1, hdt1k]
              · rw [((IH h).1 (Or.inl hknotks)).2, hkt1k]
            · have hne : h ≠ k := fun e => hknotks (e ▸ hmem')
              have hnone1 : kt1.find h = none := by
                rw [(hother h hne).2]
                exact hnone
              exact (IH h).2 hmem' hnone1 b0 hb0
      · -- `k` already has keep entries: the iteration is a no-op
        rw [casStep_skip apat dt0 dt kt k (by simp [hkt])] at hfold
        have IH := casFold_char apat dt0 ks dt kt dt' kt' hnd'
          (fun k' hk' => H2 k' (List.mem_cons_of_mem k hk'))
          (fun k' hk' => H3 k' (List.mem_cons_of_mem k hk')) hktnd hfold
        refine ⟨?_, ?_⟩
        · rintro (hnmem | hsome)
          · exact (IH h).1 (Or.inl (fun hx => hnmem (List.mem_cons_of_mem k hx)))
          · exact (IH h).1 (Or.inr hsome)
        · intro hmem hnone b hb
          rcases List.mem_cons.mp hmem with rfl | hmem'
          · rw [hkt] at hnone
            cases hnone
          · exact (IH h).2 hmem' hnone b hb

theorem cas_char (apat : String → Bool) (dt0 kt0 dt' kt' : LuTable)
    (hdnd : (keys dt0).Nodup) (hknd : (keys kt0).Nodup)
    (hr : check_and_autoselect apat dt0 kt0 = some (dt', kt')) (h : String) :
    ((dt0.find h = none ∨ (kt0.find h).isSome) →
        dt'.find h = dt0.find h ∧ kt'.find h = kt0.find h) ∧
    (∀ b, dt0.find h = some b → kt0.find h = none →
        ∃ pr, casOutcome apat b = some pr ∧ dt'.find h = pr.1 ∧ kt'.find h = some pr.2) := by
  unfold check_and_autoselect at hr
  have hks : (sortStrs (keys dt0)).Nodup := nodup_sortStrs _ hdnd
  have IH := casFold_char apat dt0 (sortStrs (keys dt0)) dt0 kt0 dt' kt' hks
    (fun _ _ => rfl)
    (fun k hk => (mem_keys_iff k dt0).mp ((mem_sortStrs _ k).mp hk)) hknd hr h
  constructor
  · rintro (hnone | hsome)
    · refine IH.1 (Or.inl ?_)
      intro hx
      have hs : (dt0.find h).isSome := (mem_keys_iff h dt0).mp ((mem_sortStrs _ h).mp hx)
      rw [hnone] at hs
      cases hs
    · exact IH.1 (Or.inr hsome)
  · intro b hb hnone
    have hmem : h ∈ sortStrs (keys dt0) :=
      (mem_sortStrs _ h).mpr ((mem_keys_iff h dt0).mpr (by simp [hb]))
    exact IH.2 hmem hnone b hb

theorem scopeSplit_fst (deldir : String) (dupes : LuTable) :
    (scopeSplit deldir dupes).1
      = addAll [] ((pairs dupes).filter (fun pr => isRelativeTo deldir pr.2)) := by
  unfold scopeSplit
  rw [splitAdd_eq]

theorem scopeSplit_snd (deldir : String) (dupes : LuTable) :
    (scopeSplit deldir dupes).2
      = addAll [] ((pairs dupes).filter (fun pr => !(isRelativeTo deldir pr.2))) := by
  unfold scopeSplit
  rw [splitAdd_eq]

theorem patternSplit_fst (pattern : String → Bool) (t : LuTable) :
    (patternSplit pattern t).1
      = addAll [] ((pairs t).filter (fun pr => pattern (pname pr.2))) := by
  unfold patternSplit
  rw [splitAdd_eq]

theorem patternSplit_snd (pattern : String → Bool) (t : LuTable) :
    (patternSplit pattern t).2
      = addAll [] ((pairs t).filter (fun pr => !(pattern (pname pr.2)))) := by
  unfold patternSplit
  rw [splitAdd_eq]

theorem contains_addAll_nil (prs : List (String × String)) (h f : String) :
    luContains (addAll [] prs) h f ↔ (h, f) ∈ prs := by
  rw [contains_addAll]
  simp [luContains, find]

theorem mem_pairs_addAll_nil (prs : List (String × String)) (x : String × String) :
    x ∈ pairs (addAll [] prs) ↔ x ∈ prs := by
  have hperm := pairs_addAll prs []
  have h0 : pairs ([] : LuTable) = [] := rfl
  rw [h0, List.nil_append] at hperm
  exact hperm.mem_iff

theorem pairsNodup_addAll_nil (prs : List (String × String)) (hnd : prs.Nodup) :
    (pairs (addAll [] prs)).Nodup := by
  have hperm := pairs_addAll prs []
  have h0 : pairs ([] : LuTable) = [] := rfl
  rw [h0, List.nil_append] at hperm
  exact hperm.nodup_iff.mpr hnd

theorem keysNodup_nil : (keys ([] : LuTable)).Nodup := by simp [keys]

theorem nonemptyBuckets_nil : NonemptyBuckets ([] : LuTable) := by
  intro h b hf
  simp [find] at hf

theorem keysNodup_pruneFold : ∀ (ks : List String) (d : LuTable), (keys d).Nodup →
    (keys (ks.foldl
      (fun d k => if ((d.find k).getD []).length = 1 then d.ldel [k] else d) d)).Nodup
  | [], _, hnd => hnd
  | k :: ks, d, hnd => by
      rw [List.foldl_cons]
      apply keysNodup_pruneFold ks
      by_cases hlen : ((d.find k).getD []).length = 1
      · rw [if_pos hlen]
        exact keysNodup_ldel d [k] hnd
      · rw [if_neg hlen]
        exact hnd

theorem keysNodup_pruneSingles (dt kt : LuTable) (hnd : (keys dt).Nodup) :
    (keys (pruneSingles dt kt)).Nodup :=
  keysNodup_pruneFold _ dt hnd

theorem nonemptyBuckets_pruneFold : ∀ (ks : List String) (d : LuTable), NonemptyBuckets d →
    NonemptyBuckets (ks.foldl
      (fun d k => if ((d.find k).getD []).length = 1 then d.ldel [k] else d) d)
  | [], _, hne => hne
  | k :: ks, d, hne => by
      rw [List.foldl_cons]
      apply nonemptyBuckets_pruneFold ks
      by_cases hlen : ((d.find k).getD []).length = 1
      · rw [if_pos hlen]
        exact nonemptyBuckets_ldel d [k] hne
      · rw [if_neg hlen]
        exact hne

theorem nonemptyBuckets_pruneSingles (dt kt : LuTable) (hne : NonemptyBuckets dt) :
    NonemptyBuckets (pruneSingles dt kt) :=
  nonemptyBuckets_pruneFold _ dt hne

theorem dd3pre_wf (dupes : LuTable) (deldir : String) (pattern : String → Bool)
    (md dg : Bool) :
    (keys (dd3pre dupes deldir pattern md dg).1).Nodup ∧
    (keys (dd3pre dupes deldir pattern md dg).2).Nodup ∧
    NonemptyBuckets (dd3pre dupes deldir pattern md dg).1 ∧
    NonemptyBuckets (dd3pre dupes deldir pattern md dg).2 := by
  have hmtK : (keys (patternSplit pattern (scopeSplit deldir dupes).1).1).Nodup := by
    rw [patternSplit_fst]
    exact keysNodup_addAll _ _ keysNodup_nil
  have hnmtK : (keys (patternSplit pattern (scopeSplit deldir dupes).1).2).Nodup := by
    rw [patternSplit_snd]
    exact keysNodup_addAll _ _ keysNodup_nil
  have houtK : (keys (outsidePruned deldir dupes)).Nodup := by
    unfold outsidePruned
    refine keysNodup_ldel _ _ ?_
    rw [scopeSplit_snd]
    exact keysNodup_addAll _ _ keysNodup_nil
  have hmtN : NonemptyBuckets (patternSplit pattern (scopeSplit deldir dupes).1).1 := by
    rw [patternSplit_fst]
    exact nonemptyBuckets_addAll _ _ nonemptyBuckets_nil
  have hnmtN : NonemptyBuckets (patternSplit pattern (scopeSplit deldir dupes).1).2 := by
    rw [patternSplit_snd]
    exact nonemptyBuckets_addAll _ _ nonemptyBuckets_nil
  have houtN : NonemptyBuckets (outsidePruned deldir dupes) := by
    unfold outsidePruned
    refine nonemptyBuckets_ldel _ _ ?_
    rw [scopeSplit_snd]
    exact nonemptyBuckets_addAll _ _ nonemptyBuckets_nil
  cases md
  · cases dg
    · exact ⟨hnmtK, hmtK, hnmtN, hmtN⟩
    · exact ⟨keysNodup_addAll _ _ hnmtK, hmtK, nonemptyBuckets_addAll _ _ hnmtN, hmtN⟩
  · cases dg
    · exact ⟨keysNodup_pruneSingles _ _ hmtK, hnmtK,
        nonemptyBuckets_pruneSingles _ _ hmtN, hnmtN⟩
    · exact ⟨hmtK, keysNodup_addAll _ _ hnmtK, hmtN, nonemptyBuckets_addAll _ _ hnmtN⟩

theorem contains_mt (pattern : String → Bool) (t : LuTable) (h f : String)
    (hc : luContains (patternSplit pattern t).1 h f) :
    pattern (pname f) = true ∧ (h, f) ∈ pairs t := by
  rw [patternSplit_fst] at hc
  have hmem := (contains_addAll_nil _ h f).mp hc
  obtain ⟨hmem, hq⟩ := List.mem_filter.mp hmem
  exact ⟨by simpa using hq, hmem⟩

theorem contains_nmt (pattern : String → Bool) (t : LuTable) (h f : String)
    (hc : luContains (patternSplit pattern t).2 h f) :
    pattern (pname f) = false ∧ (h, f) ∈ pairs t := by
  rw [patternSplit_snd] at hc
  have hmem := (contains_addAll_nil _ h f).mp hc
  obtain ⟨hmem, hq⟩ := List.mem_filter.mp hmem
  exact ⟨by simpa using hq, hmem⟩

theorem mem_pairs_scope_fst (deldir : String) (dupes : LuTable) (h f : String)
    (hmem : (h, f) ∈ pairs (scopeSplit deldir dupes).1) :
    isRelativeTo deldir f = true ∧ (h, f) ∈ pairs dupes := by
  rw [scopeSplit_fst, mem_pairs_addAll_nil] at hmem
  obtain ⟨hmem, hq⟩ := List.mem_filter.mp hmem
  exact ⟨by simpa using hq, hmem⟩

theorem mem_pairs_outs (deldir : String) (dupes : LuTable) (h f : String)
    (hmem : (h, f) ∈ pairs (outsidePruned deldir dupes)) :
    isRelativeTo deldir f = false := by
  unfold outsidePruned at hmem
  have hsub : ((scopeSplit deldir dupes).2.ldel
        (((scopeSplit deldir dupes).2.keys).filter
          (fun k => !((scopeSplit deldir dupes).1.hasKey k)))).Sublist
      (scopeSplit deldir dupes).2 :=
    List.filter_sublist _
  have hmem2 : (h, f) ∈ pairs (scopeSplit deldir dupes).2 :=
    (pairs_sublist hsub).subset hmem
  rw [scopeSplit_snd, mem_pairs_addAll_nil] at hmem2
  obtain ⟨_, hq⟩ := List.mem_filter.mp hmem2
  simpa using hq

theorem mem_pairs_nmt (pattern : String → Bool) (t : LuTable) (x : String × String)
    (hx : x ∈ pairs (patternSplit pattern t).2) : x ∈ pairs t := by
  rw [patternSplit_snd, mem_pairs_addAll_nil] at hx
  exact (List.mem_filter.mp hx).1

theorem find_pruneSingles (dt kt : LuTable) (hnd : (keys dt).Nodup) (h : String) :
    (pruneSingles dt kt).find h =
      if h ∈ keys dt ∧ ¬ (kt.find h).isSome ∧ ((dt.find h).getD []).length = 1 then none
      else dt.find h := by
  unfold pruneSingles
  rw [pruneFold_find _ dt h (hnd.filter _)]
  by_cases hmem : h ∈ (keys dt).filter (fun k => !(kt.hasKey k))
  · obtain ⟨h1, h2⟩ := List.mem_filter.mp hmem
    have h2' : ¬ (kt.find h).isSome := by simpa [hasKey] using h2
    by_cases hlen : ((dt.find h).getD []).length = 1 <;> simp [hmem, h1, h2', hlen]
  · have : ¬ (h ∈ keys dt ∧ ¬ (kt.find h).isSome) := by
      intro ⟨h1, h2⟩
      exact hmem (List.mem_filter.mpr ⟨h1, by simpa [hasKey] using h2⟩)
    by_cases h1 : h ∈ keys dt
    · have h2 : (kt.find h).isSome := by tauto
      simp [hmem, h1, h2]
    · simp [hmem, h1]

theorem contains_pruneSingles_sub (dt kt : LuTable) (h f : String)
    (hnd : (keys dt).Nodup) (hc : luContains (pruneSingles dt kt) h f) :
    luContains dt h f := by
  obtain ⟨b, hb, hf⟩ := hc
  rw [find_pruneSingles dt kt hnd] at hb
  split at hb
  · cases hb
  · exact ⟨b, hb, hf⟩

theorem dd3pre_disjoint (dupes : LuTable) (deldir : String) (pattern : String → Bool)
    (md dg : Bool) (h f : String)
    (hd : luContains (dd3pre dupes deldir pattern md dg).1 h f)
    (hk : luContains (dd3pre dupes deldir pattern md dg).2 h f) : False := by
  cases md
  · cases dg
    · have h1 := contains_nmt pattern (scopeSplit deldir dupes).1 h f hd
      have h2 := contains_mt pattern (scopeSplit deldir dupes).1 h f hk
      rw [h1.1] at h2
      exact absurd h2.1 (by simp)
    · have h2 := contains_mt pattern (scopeSplit deldir dupes).1 h f hk
      have hd' : luContains
          (luIor (patternSplit pattern (scopeSplit deldir dupes).1).2
            (outsidePruned deldir dupes)) h f := hd
      unfold luIor at hd'
      rcases (contains_addAll _ _ h f).mp hd' with hnm | hout
      · have h1 := contains_nmt pattern (scopeSplit deldir dupes).1 h f hnm
        rw [h1.1] at h2
        exact absurd h2.1 (by simp)
      · have hrel := (mem_pairs_scope_fst deldir dupes h f h2.2).1
        have hnrel := mem_pairs_outs deldir dupes h f hout
        rw [hrel] at hnrel
        cases hnrel
  · cases dg
    · have hmtK : (keys (patternSplit pattern (scopeSplit deldir dupes).1).1).Nodup := by
        rw [patternSplit_fst]
        exact keysNodup_addAll _ _ keysNodup_nil
      have hd' : luContains (pruneSingles
          (patternSplit pattern (scopeSplit deldir dupes).1).1
          (patternSplit pattern (scopeSplit deldir dupes).1).2) h f := hd
      have hdmt := contains_pruneSingles_sub _ _ h f hmtK hd'
      have h1 := contains_mt pattern (scopeSplit deldir dupes).1 h f hdmt
      have h2 := contains_nmt pattern (scopeSplit deldir dupes).1 h f hk
      rw [h2.1] at h1
      exact absurd h1.1 (by simp)
    · have h1 := contains_mt pattern (scopeSplit deldir dupes).1 h f hd
      have hk' : luContains
          (luIor (patternSplit pattern (scopeSplit deldir dupes).1).2
            (outsidePruned deldir dupes)) h f := hk
      unfold luIor at hk'
      rcases (contains_addAll _ _ h f).mp hk' with hnm | hout
      · have h2 := contains_nmt pattern (scopeSplit deldir dupes).1 h f hnm
        rw [h2.1] at h1
        exact absurd h1.1 (by simp)
      · have hrel := (mem_pairs_scope_fst deldir dupes h f h1.2).1
        have hnrel := mem_pairs_outs deldir dupes h f hout
        rw [hrel] at hnrel
        cases hnrel

theorem dd3pre_fst_bucketNodup (dupes : LuTable) (deldir : String)
    (pattern : String → Bool) (md dg : Bool) (h : String) (b : List String)
    (hpn : (pairs dupes).Nodup)
    (hfind : (dd3pre dupes deldir pattern md dg).1.find h = some b) : b.Nodup := by
  have hindnd : (pairs (scopeSplit deldir dupes).1).Nodup := by
    rw [scopeSplit_fst]
    exact pairsNodup_addAll_nil _ (hpn.filter _)
  have hmtnd : (pairs (patternSplit pattern (scopeSplit deldir dupes).1).1).Nodup := by
    rw [patternSplit_fst]
    exact pairsNodup_addAll_nil _ (hindnd.filter _)
  have hnmtnd : (pairs (patternSplit pattern (scopeSplit deldir dupes).1).2).Nodup := by
    rw [patternSplit_snd]
    exact pairsNodup_addAll_nil _ (hindnd.filter _)
  have houtnd : (pairs (outsidePruned deldir dupes)).Nodup := by
    have hscnd : (pairs (scopeSplit deldir dupes).2).Nodup := by
      rw [scopeSplit_snd]
      exact pairsNodup_addAll_nil _ (hpn.filter _)
    have hsub : (outsidePruned deldir dupes).Sublist (scopeSplit deldir dupes).2 :=
      List.filter_sublist _
    exact hscnd.sublist (pairs_sublist hsub)
  cases md
  · cases dg
    · exact bucket_nodup _ h b hnmtnd hfind
    · have hperm := pairs_addAll (pairs (outsidePruned deldir dupes))
        (patternSplit pattern (scopeSplit deldir dupes).1).2
      have happnd : (pairs (patternSplit pattern (scopeSplit deldir dupes).1).2
          ++ pairs (outsidePruned deldir dupes)).Nodup := by
        rw [List.nodup_append]
        refine ⟨hnmtnd, houtnd, ?_⟩
        intro x hx1 hx2
        obtain ⟨h1, f1⟩ := x
        have hrel := (mem_pairs_scope_fst deldir dupes h1 f1
          (mem_pairs_nmt pattern _ _ hx1)).1
        have hnrel := mem_pairs_outs deldir dupes h1 f1 hx2
        rw [hrel] at hnrel
        cases hnrel
      exact bucket_nodup _ h b (hperm.nodup_iff.mpr happnd) hfind
  · cases dg
    · have hmtK : (keys (patternSplit pattern (scopeSplit deldir dupes).1).1).Nodup := by
        rw [patternSplit_fst]
        exact keysNodup_addAll _ _ keysNodup_nil
      have hfind' : (pruneSingles (patternSplit pattern (scopeSplit deldir dupes).1).1
          (patternSplit pattern (scopeSplit deldir dupes).1).2).find h = some b := hfind
      rw [find_pruneSingles _ _ hmtK] at hfind'
      split at hfind'
      · cases hfind'
      · exact bucket_nodup _ h b hmtnd hfind'
    · exact bucket_nodup _ h b hmtnd hfind

theorem casOutcome_of_find_none (apat : String → Bool) (b : List String)
    (hfind : (sortStrs b).find? (fun f => apat (pname f)) = none) :
    casOutcome apat b = some (none, b) := by
  unfold casOutcome
  rw [hfind]

theorem casOutcome_of_find_some (apat : String → Bool) (b b' : List String) (f : String)
    (hfind : (sortStrs b).find? (fun f => apat (pname f)) = some f)
    (hrem : bucketRemove b f = some b') :
    casOutcome apat b = if b' = [] then none else some (some [f], b') := by
  simp [casOutcome, hfind, hrem]

theorem bucketRemove_isSome_of_mem (b : List String) (f : String) (hmem : f ∈ b) :
    ∃ b', bucketRemove b f = some b' := by
  rcases hb : bucketRemove b f with _ | b2
  · exact absurd ((bucketRemove_eq_none_iff f b).mp hb) (by simp [hmem])
  · exact ⟨b2, rfl⟩

theorem find_none_of_autoselect_off (b : List String) :
    (sortStrs b).find? (fun g => autoselectApat false (pname g)) = none := by
  induction sortStrs b with
  | nil => rfl
  | cons x xs ih => simp [List.find?, autoselectApat, ih]

/-- C1: for every input duplicate index (with no repeated `(hash, path)`
pair, the data-model invariant of the duplicate index) and every
combination of scope directory, pattern and the three flags, when `dd3`
returns, its delete table and keep table share no `(hash, path)` pair. -/
theorem C1_dd3_disjoint (dupes : LuTable) (deldir : String) (pattern : String → Bool)
    (md dg asel : Bool) (dt' kt' : LuTable) (h f : String)
    (hpn : (pairs dupes).Nodup)
    (hr : dd3 dupes deldir pattern md dg asel = some (dt', kt')) :
    ¬ (luContains dt' h f ∧ luContains kt' h f) := by
  rintro ⟨hd, hk⟩
  obtain ⟨hdK, hkK, hdN, hkN⟩ := dd3pre_wf dupes deldir pattern md dg
  have hchar := cas_char (autoselectApat asel)
    (dd3pre dupes deldir pattern md dg).1 (dd3pre dupes deldir pattern md dg).2
    dt' kt' hdK hkK hr h
  rcases hk0 : (dd3pre dupes deldir pattern md dg).2.find h with _ | kb
  · rcases hd0 : (dd3pre dupes deldir pattern md dg).1.find h with _ | b
    · obtain ⟨e1, _⟩ := hchar.1 (Or.inl hd0)
      obtain ⟨bb, hbb, _⟩ := hd
      rw [e1, hd0] at hbb
      cases hbb
    · obtain ⟨pr, hoc, hdt', hkt'⟩ := hchar.2 b hd0 hk0
      obtain ⟨bb, hbb, hfb⟩ := hd
      obtain ⟨kk, hkk, hfk⟩ := hk
      rw [hdt'] at hbb
      rw [hkt'] at hkk
      injection hkk with hkk
      subst hkk
      rcases hfind : (sortStrs b).find? (fun g => autoselectApat asel (pname g)) with _ | g
      · rw [casOutcome_of_find_none _ _ hfind] at hoc
        injection hoc with hoc
        subst hoc
        cases hbb
      · have hgmem : g ∈ b := (mem_sortStrs b g).mp (List.mem_of_find?_eq_some hfind)
        obtain ⟨b2, hrem⟩ := bucketRemove_isSome_of_mem b g hgmem
        rw [casOutcome_of_find_some _ _ _ _ hfind hrem] at hoc
        by_cases hb2 : b2 = []
        · rw [if_pos hb2] at hoc
          cases hoc
        · rw [if_neg hb2] at hoc
          injection hoc with hoc
          subst hoc
          have hbnd := dd3pre_fst_bucketNodup dupes deldir pattern md dg h b hpn hd0
          have hnm := (bucketRemove_not_mem g b b2 hbnd hrem).1
          injection hbb with hbb
          rw [← hbb] at hfb
          have hfg : f = g := by simpa using hfb
          subst hfg
          exact hnm hfk
  · obtain ⟨e1, e2⟩ := hchar.1 (Or.inr (by simp [hk0]))
    obtain ⟨bb, hbb, hfb⟩ := hd
    obtain ⟨kk, hkk, hfk⟩ := hk
    rw [e1] at hbb
    rw [e2, hk0] at hkk
    injection hkk with hkk
    subst hkk
    exact dd3pre_disjoint dupes deldir pattern md dg h f ⟨bb, hbb, hfb⟩ ⟨kb, hk0, hfk⟩

/-- Witness for C1 on the spec's own scenario. -/
theorem C1_dd3_disjoint_witness :
    (pairs [("H1", ["/a/x", "/a/y", "/b/z"])]).Nodup ∧
    dd3 [("H1", ["/a/x", "/a/y", "/b/z"])] "/a" (fun s => s == "y") true true false
      = some ([("H1", ["/a/y"])], [("H1", ["/a/x", "/b/z"])]) ∧
    ¬ (luContains [("H1", ["/a/y"])] "H1" "/a/y" ∧
       luContains [("H1", ["/a/x", "/b/z"])] "H1" "/a/y") :=
  ⟨by decide, by decide,
    C1_dd3_disjoint [("H1", ["/a/x", "/a/y", "/b/z"])] "/a" (fun s => s == "y")
      true true false [("H1", ["/a/y"])] [("H1", ["/a/x", "/b/z"])] "H1" "/a/y"
      (by decide) (by decide)⟩

/-- C3: with autoselect disabled, every hash present in the returned
delete table also appears in the returned keep table with a nonempty
bucket (the safety pass moves whole buckets of keep-less hashes out of
delete). -/
theorem C3_keep_covers_delete (dupes : LuTable) (deldir : String)
    (pattern : String → Bool) (md dg : Bool) (dt' kt' : LuTable) (h : String)
    (hr : dd3 dupes deldir pattern md dg false = some (dt', kt'))
    (hks : (dt'.find h).isSome) :
    ∃ b, kt'.find h = some b ∧ b ≠ [] := by
  obtain ⟨hdK, hkK, hdN, hkN⟩ := dd3pre_wf dupes deldir pattern md dg
  have hchar := cas_char (autoselectApat false)
    (dd3pre dupes deldir pattern md dg).1 (dd3pre dupes deldir pattern md dg).2
    dt' kt' hdK hkK hr h
  rcases hk0 : (dd3pre dupes deldir pattern md dg).2.find h with _ | kb
  · rcases hd0 : (dd3pre dupes deldir pattern md dg).1.find h with _ | b
    · obtain ⟨e1, _⟩ := hchar.1 (Or.inl hd0)
      rw [e1, hd0] at hks
      cases hks
    · obtain ⟨pr, hoc, hdt', _⟩ := hchar.2 b hd0 hk0
      rw [casOutcome_of_find_none _ _ (find_none_of_autoselect_off b)] at hoc
      injection hoc with hoc
      subst hoc
      rw [hdt'] at hks
      cases hks
  · obtain ⟨_, e2⟩ := hchar.1 (Or.inr (by simp [hk0]))
    refine ⟨kb, by rw [e2, hk0], hkN h kb hk0⟩

/-- Witness for C3: the spec's `{H1: [/a/p, /a/q]}`, everything matched,
autoselect off — the delete table comes back empty and the scenario of
the spec with a keep survivor also instantiates the theorem. -/
theorem C3_keep_covers_delete_witness :
    dd3 [("H1", ["/a/x", "/a/y", "/b/z"])] "/a" (fun s => s == "y") true true false
      = some ([("H1", ["/a/y"])], [("H1", ["/a/x", "/b/z"])]) ∧
    (LuTable.find [("H1", ["/a/y"])] "H1").isSome ∧
    ∃ b, LuTable.find [("H1", ["/a/x", "/b/z"])] "H1" = some b ∧ b ≠ [] :=
  ⟨by decide, by decide,
    C3_keep_covers_delete [("H1", ["/a/x", "/a/y", "/b/z"])] "/a" (fun s => s == "y")
      true true [("H1", ["/a/y"])] [("H1", ["/a/x", "/b/z"])] "H1"
      (by decide) (by decide)⟩

/-- C7: in local-only mode (`match_deletions` true, `dupes_global` false),
a hash whose pattern-matched bucket is a singleton and that has no
unmatched bucket is removed from the delete table before the safety pass,
and ends up in neither output table. -/
theorem C7_local_singleton_dropped (dupes : LuTable) (deldir : String)
    (pattern : String → Bool) (asel : Bool) (h : String) (b : List String)
    (dt' kt' : LuTable)
    (hmt : (patternSplit pattern (scopeSplit deldir dupes).1).1.find h = some b)
    (hlen : b.length = 1)
    (hnmt : (patternSplit pattern (scopeSplit deldir dupes).1).2.find h = none)
    (hr : dd3 dupes deldir pattern true false asel = some (dt', kt')) :
    (dd3pre dupes deldir pattern true false).1.find h = none ∧
    dt'.find h = none ∧ kt'.find h = none := by
  obtain ⟨hdK, hkK, _, _⟩ := dd3pre_wf dupes deldir pattern true false
  have hmtK : (keys (patternSplit pattern (scopeSplit deldir dupes).1).1).Nodup := by
    rw [patternSplit_fst]
    exact keysNodup_addAll _ _ keysNodup_nil
  have hpre1 : (dd3pre dupes deldir pattern true false).1.find h = none := by
    show (pruneSingles (patternSplit pattern (scopeSplit deldir dupes).1).1
      (patternSplit pattern (scopeSplit deldir dupes).1).2).find h = none
    rw [find_pruneSingles _ _ hmtK]
    rw [if_pos ⟨(mem_keys_iff h _).mpr (by simp [hmt]), by simp [hnmt],
      by simp [hmt, hlen]⟩]
  have hpre2 : (dd3pre dupes deldir pattern true false).2.find h = none := hnmt
  have hchar := cas_char (autoselectApat asel)
    (dd3pre dupes deldir pattern true false).1 (dd3pre dupes deldir pattern true false).2
    dt' kt' hdK hkK hr h
  obtain ⟨e1, e2⟩ := hchar.1 (Or.inl hpre1)
  exact ⟨hpre1, by rw [e1, hpre1], by rw [e2, hpre2]⟩

/-- Witness for C7: the lone in-scope copy `/d/a` of hash `h` (its other
copy is out of scope) vanishes from both outputs. -/
theorem C7_local_singleton_dropped_witness :
    (patternSplit (fun s => s == "a")
      (scopeSplit "/d" [("h", ["/d/a", "/b/c"])]).1).1.find "h" = some ["/d/a"] ∧
    dd3 [("h", ["/d/a", "/b/c"])] "/d" (fun s => s == "a") true false false
      = some ([], []) ∧
    (dd3pre [("h", ["/d/a", "/b/c"])] "/d" (fun s => s == "a") true false).1.find "h"
      = none ∧
    LuTable.find [] "h" = none :=
  ⟨by decide, by decide,
    (C7_local_singleton_dropped [("h", ["/d/a", "/b/c"])] "/d" (fun s => s == "a")
      false "h" ["/d/a"] [] [] (by decide) (by decide) (by decide) (by decide)).1,
    by decide⟩

/-- C2: a failing input for the safety claim.  The table holds one hash
with two distinct paths; in mode `match_deletions = false`,
`dupes_global = false`, `autoselect = true`, the only in-scope path is
first moved to keep and then discarded again by autoselect, emptying the
keep bucket — evaluating `assert len(keeptable[hsh]) > 0` raises
`KeyError` (modelled by `dd3 = none`) instead of returning with one path
kept. -/
theorem C2_dd3_crash :
    LuTable.find [("h1", ["/d/a", "/b/c"])] "h1" = some ["/d/a", "/b/c"] ∧
    LuTable.keys [("h1", ["/d/a", "/b/c"])] = ["h1"] ∧
    ("/d/a" : String) ≠ "/b/c" ∧
    dd3 [("h1", ["/d/a", "/b/c"])] "/d" (fun _ => false) false false true = none := by
  refine ⟨by decide, by decide, by decide, by decide⟩

/-- C4 counterexample: with three would-be-deleted paths and autoselect
on, the code leaves ONE path in delete and TWO in keep; the claim as
stated predicts exactly one path in keep. -/
theorem C4_counterexample :
    (dd3pre [("h", ["/d/a", "/d/b", "/d/c"])] "/d" (fun _ => true) true false).1.find "h"
      = some ["/d/a", "/d/b", "/d/c"] ∧
    (dd3pre [("h", ["/d/a", "/d/b", "/d/c"])] "/d" (fun _ => true) true false).2.find "h"
      = none ∧
    dd3 [("h", ["/d/a", "/d/b", "/d/c"])] "/d" (fun _ => true) true false true
      = some ([("h", ["/d/a"])], [("h", ["/d/b", "/d/c"])]) ∧
    ((LuTable.find [("h", ["/d/b", "/d/c"])] "h").getD []).length ≠ 1 := by
  refine ⟨by decide, by decide, by decide, by decide⟩

/-- C4 (amended): with autoselect enabled, a hash that is in the delete
table and absent from the keep table when the safety pass runs ends with
exactly ONE path in the delete table and all its remaining paths in the
keep table. -/
theorem C4_autoselect_amended (dupes : LuTable) (deldir : String)
    (pattern : String → Bool) (md dg : Bool) (dt' kt' : LuTable) (h : String)
    (b : List String)
    (hd0 : (dd3pre dupes deldir pattern md dg).1.find h = some b)
    (hk0 : (dd3pre dupes deldir pattern md dg).2.find h = none)
    (hall : ∀ f ∈ b, dotSearch (pname f) = true)
    (hr : dd3 dupes deldir pattern md dg true = some (dt', kt')) :
    ∃ f kb, dt'.find h = some [f] ∧ kt'.find h = some kb ∧ b.Perm (f :: kb) := by
  obtain ⟨hdK, hkK, hdN, _⟩ := dd3pre_wf dupes deldir pattern md dg
  have hchar := cas_char (autoselectApat true)
    (dd3pre dupes deldir pattern md dg).1 (dd3pre dupes deldir pattern md dg).2
    dt' kt' hdK hkK hr h
  obtain ⟨pr, hoc, hdt', hkt'⟩ := hchar.2 b hd0 hk0
  have hbne : b ≠ [] := hdN h b hd0
  obtain ⟨x, hx⟩ := List.exists_mem_of_ne_nil b hbne
  have hxs : x ∈ sortStrs b := (mem_sortStrs b x).mpr hx
  rcases hfind : (sortStrs b).find? (fun g => autoselectApat true (pname g)) with _ | g
  · exfalso
    have hxfail := List.find?_eq_none.mp hfind x hxs
    exact hxfail (by simpa [autoselectApat] using hall x hx)
  · have hgmem : g ∈ b := (mem_sortStrs b g).mp (List.mem_of_find?_eq_some hfind)
    obtain ⟨b2, hrem⟩ := bucketRemove_isSome_of_mem b g hgmem
    rw [casOutcome_of_find_some _ _ _ _ hfind hrem] at hoc
    by_cases hb2 : b2 = []
    · rw [if_pos hb2] at hoc
      cases hoc
    · rw [if_neg hb2] at hoc
      injection hoc with hoc
      subst hoc
      exact ⟨g, b2, by rw [hdt'], by rw [hkt'], bucketRemove_perm g b b2 hrem⟩

/-- Witness for the amended C4 on the three-path counterexample input. -/
theorem C4_autoselect_amended_witness :
    (dd3pre [("h", ["/d/a", "/d/b", "/d/c"])] "/d" (fun _ => true) true false).1.find "h"
      = some ["/d/a", "/d/b", "/d/c"] ∧
    ∃ f kb, LuTable.find [("h", ["/d/a"])] "h" = some [f] ∧
      LuTable.find [("h", ["/d/b", "/d/c"])] "h" = some kb ∧
      List.Perm ["/d/a", "/d/b", "/d/c"] (f :: kb) :=
  ⟨by decide,
    C4_autoselect_amended [("h", ["/d/a", "/d/b", "/d/c"])] "/d" (fun _ => true)
      true false [("h", ["/d/a"])] [("h", ["/d/b", "/d/c"])] "h"
      ["/d/a", "/d/b", "/d/c"] (by decide) (by decide) (by decide) (by decide)⟩

/-- C5 counterexample: bucket `[/d/b/a, /d/a/z]`, everything matching.
Sorting by FILENAME would pick `/d/b/a` (name "a"); the code sorts by
the full path and moves `/d/a/z` back to delete. -/
theorem C5_counterexample :
    dd3 [("h", ["/d/b/a", "/d/a/z"])] "/d" (fun _ => true) true false true
      = some ([("h", ["/d/a/z"])], [("h", ["/d/b/a"])]) ∧
    (sortByName ["/d/b/a", "/d/a/z"]).find? (fun f => dotSearch (pname f))
      = some "/d/b/a" ∧
    LuTable.find [("h", ["/d/a/z"])] "h" = some ["/d/a/z"] ∧
    ("/d/a/z" : String) ≠ "/d/b/a" := by
  refine ⟨by decide, by decide, by decide, by decide⟩

/-- C5 (amended): the path autoselect moves back to delete is the first
path of the hash's original delete bucket sorted by FULL PATH whose
filename matches the autoselect pattern. -/
theorem C5_autoselect_pick (dupes : LuTable) (deldir : String)
    (pattern : String → Bool) (md dg : Bool) (dt' kt' : LuTable) (h f : String)
    (b : List String)
    (hd0 : (dd3pre dupes deldir pattern md dg).1.find h = some b)
    (hk0 : (dd3pre dupes deldir pattern md dg).2.find h = none)
    (hfind : (sortStrs b).find? (fun g => dotSearch (pname g)) = some f)
    (hr : dd3 dupes deldir pattern md dg true = some (dt', kt')) :
    dt'.find h = some [f] := by
  obtain ⟨hdK, hkK, _, _⟩ := dd3pre_wf dupes deldir pattern md dg
  have hchar := cas_char (autoselectApat true)
    (dd3pre dupes deldir pattern md dg).1 (dd3pre dupes deldir pattern md dg).2
    dt' kt' hdK hkK hr h
  obtain ⟨pr, hoc, hdt', _⟩ := hchar.2 b hd0 hk0
  have hfind' : (sortStrs b).find? (fun g => autoselectApat true (pname g)) = some f :=
    hfind
  have hfmem : f ∈ b := (mem_sortStrs b f).mp (List.mem_of_find?_eq_some hfind')
  obtain ⟨b2, hrem⟩ := bucketRemove_isSome_of_mem b f hfmem
  rw [casOutcome_of_find_some _ _ _ _ hfind' hrem] at hoc
  by_cases hb2 : b2 = []
  · rw [if_pos hb2] at hoc
    cases hoc
  · rw [if_neg hb2] at hoc
    injection hoc with hoc
    subst hoc
    rw [hdt']

/-- Witness for the amended C5 on the counterexample input: the pick is
`/d/a/z`, the full-path-sorted first match. -/
theorem C5_autoselect_pick_witness :
    (sortStrs ["/d/b/a", "/d/a/z"]).find? (fun g => dotSearch (pname g))
      = some "/d/a/z" ∧
    LuTable.find [("h", ["/d/a/z"])] "h" = some ["/d/a/z"] :=
  ⟨by decide,
    C5_autoselect_pick [("h", ["/d/b/a", "/d/a/z"])] "/d" (fun _ => true) true false
      [("h", ["/d/a/z"])] [("h", ["/d/b/a"])] "h" "/d/a/z" ["/d/b/a", "/d/a/z"]
      (by decide) (by decide) (by decide) (by decide)⟩

/-- C6: `LuTable.add` is NOT idempotent — adding a pair that is already
contained appends a second copy of the path, so the pair is repeated and
the table changes. -/
theorem C6_add_not_idempotent :
    luContains (add ([] : LuTable) "h1" "/a") "h1" "/a" ∧
    add (add ([] : LuTable) "h1" "/a") "h1" "/a" = [("h1", ["/a", "/a"])] ∧
    add (add ([] : LuTable) "h1" "/a") "h1" "/a" ≠ add ([] : LuTable) "h1" "/a" := by
  refine ⟨by decide, by decide, by decide⟩

/-- C10: `LuTable.discard` raises `KeyError` when the hash is not a key,
`ValueError` when the hash is a key but the path is not in its bucket, and
only removes a present pair — dropping the hash entirely when its bucket
becomes empty. -/
theorem C10_discard_spec (t : LuTable) (h f : String) :
    (t.find h = none → discard t h f = .error .keyError) ∧
    (∀ b, t.find h = some b → f ∉ b → discard t h f = .error .valueError) ∧
    (∀ b, t.find h = some b → f ∈ b → (keys t).Nodup →
      ∃ t' b', discard t h f = .ok t' ∧ bucketRemove b f = some b' ∧
        (b' = [] → t'.find h = none) ∧
        (b' ≠ [] → t'.find h = some b') ∧
        (∀ h', h' ≠ h → t'.find h' = t.find h')) := by
  refine ⟨discard_of_find_none h f t,
    fun b hb hnm => discard_of_not_mem h f t b hb hnm, ?_⟩
  intro b hb hmem hnd
  obtain ⟨b', hrem⟩ := bucketRemove_isSome_of_mem b f hmem
  obtain ⟨t', ht', hself, hother, _, _⟩ := discard_ok h f t b b' hnd hb hrem
  refine ⟨t', b', ht', hrem, ?_, ?_, hother⟩
  · intro hb'
    rw [hself, if_pos hb']
  · intro hb'
    rw [hself, if_neg hb']

/-- Witness for C10: a missing hash gives `KeyError`, a missing path in an
existing bucket gives `ValueError`. -/
theorem C10_discard_spec_witness :
    LuTable.find [("h", ["/a"])] "g" = none ∧
    LuTable.discard [("h", ["/a"])] "g" "/a" = .error .keyError ∧
    LuTable.find [("h", ["/a", "/b"])] "h" = some ["/a", "/b"] ∧
    ("/x" : String) ∉ (["/a", "/b"] : List String) ∧
    LuTable.discard [("h", ["/a", "/b"])] "h" "/x" = .error .valueError :=
  ⟨by decide, (C10_discard_spec [("h", ["/a"])] "g" "/a").1 (by decide),
    by decide, by decide,
    (C10_discard_spec [("h", ["/a", "/b"])] "h" "/x").2.1 ["/a", "/b"]
      (by decide) (by decide)⟩

theorem checkFile_notFound (fs : String → FStat) (g : String)
    (h1 : (fs g).fexists = false) :
    checkFile fs g = .error (.dupeFileNotFound g) := by
  simp [checkFile, h1]

theorem checkFile_isDir (fs : String → FStat) (g : String)
    (h1 : (fs g).fexists = true) (h2 : (fs g).isDir = true) :
    checkFile fs g = .error (.dupeIsDirectory g) := by
  simp [checkFile, h1, h2]

theorem checkFile_isSymlink (fs : String → FStat) (g : String)
    (h1 : (fs g).fexists = true) (h2 : (fs g).isDir = false)
    (h3 : (fs g).isSymlink = true) :
    checkFile fs g = .error (.dupeIsSymLink g) := by
  simp [checkFile, h1, h2, h3]

theorem checkFile_err_of_bad (fs : String → FStat) (g : String)
    (hbad : (fs g).fexists = false ∨ (fs g).isDir = true ∨ (fs g).isSymlink = true) :
    ∃ e, checkFile fs g = .error e := by
  by_cases h1 : (fs g).fexists = true
  · by_cases h2 : (fs g).isDir = true
    · exact ⟨_, checkFile_isDir fs g h1 h2⟩
    · rcases hbad with hb | hb | hb
      · rw [h1] at hb
        cases hb
      · exact absurd hb h2
      · exact ⟨_, checkFile_isSymlink fs g h1 (by simpa using h2) hb⟩
  · exact ⟨_, checkFile_notFound fs g (by simpa using h1)⟩

theorem validateFiles_error (fs : String → FStat) : ∀ (l : List String) (f : String),
    f ∈ l → (∃ e, checkFile fs f = .error e) → ∃ e, validateFiles fs l = .error e
  | [], f, hf, _ => absurd hf (List.not_mem_nil f)
  | g :: rest, f, hf, hbad => by
      rcases hcg : checkFile fs g with e | u
      · exact ⟨e, by simp [validateFiles, hcg]⟩
      · rcases List.mem_cons.mp hf with rfl | hf'
        · obtain ⟨e, he⟩ := hbad
          rw [hcg] at he
          cases he
        · obtain ⟨e, he⟩ := validateFiles_error fs rest f hf' hbad
          exact ⟨e, by simp [validateFiles, hcg, he]⟩

theorem validate_error_of_bad_delete (fs : String → FStat) (kt dt : LuTable)
    (f : String) (hf : f ∈ chainValues dt)
    (hbad : (fs f).fexists = false ∨ (fs f).isDir = true ∨ (fs f).isSymlink = true) :
    ∃ e, validate fs kt dt = .error e := by
  unfold validate
  by_cases hov : overlapExists kt dt = true
  · exact ⟨.dupeNotValidated, by simp [hov]⟩
  · obtain ⟨e, he⟩ := validateFiles_error fs (chainValues kt ++ chainValues dt) f
      (List.mem_append.mpr (Or.inr hf)) (checkFile_err_of_bad fs f hbad)
    exact ⟨e, by simp [hov, he]⟩

theorem length_pairs_eq_chain : ∀ dt : LuTable,
    (pairs dt).length = (chainValues dt).length
  | [] => rfl
  | (k, b) :: rest => by
      rw [pairs_cons]
      simp [chainValues, length_pairs_eq_chain rest]

/-- C8: if any path in the delete table is missing, a directory, or a
symbolic link, `validate` raises — with the distinct error constructor for
each per-file case — and `delete` aborts with no file moved or unlinked
and no index record removed. -/
theorem C8_validate_and_delete (fs : String → FStat) (deduped : Bool)
    (kt dt : LuTable) (f : String) (hf : f ∈ chainValues dt)
    (hbad : (fs f).fexists = false ∨ (fs f).isDir = true ∨ (fs f).isSymlink = true) :
    (∃ e, validate fs kt dt = .error e ∧ deleteOp fs deduped kt dt = ([], some e)) ∧
    (∀ g, (fs g).fexists = false → checkFile fs g = .error (.dupeFileNotFound g)) ∧
    (∀ g, (fs g).fexists = true → (fs g).isDir = true →
      checkFile fs g = .error (.dupeIsDirectory g)) ∧
    (∀ g, (fs g).fexists = true → (fs g).isDir = false → (fs g).isSymlink = true →
      checkFile fs g = .error (.dupeIsSymLink g)) := by
  refine ⟨?_, fun g h1 => checkFile_notFound fs g h1,
    fun g h1 h2 => checkFile_isDir fs g h1 h2,
    fun g h1 h2 h3 => checkFile_isSymlink fs g h1 h2 h3⟩
  obtain ⟨e, he⟩ := validate_error_of_bad_delete fs kt dt f hf hbad
  refine ⟨e, he, ?_⟩
  unfold deleteOp
  have hne : ¬ ((pairs dt).length = 0 ∧ deduped = false) := by
    rintro ⟨hlen, _⟩
    rw [length_pairs_eq_chain] at hlen
    have hnil : chainValues dt = [] := List.length_eq_zero.mp hlen
    rw [hnil] at hf
    exact absurd hf (List.not_mem_nil f)
  rw [if_neg hne, he]

/-- Witness for C8: one delete candidate that does not exist on disk. -/
theorem C8_validate_and_delete_witness :
    ("/x" : String) ∈ chainValues [("h", ["/x"])] ∧
    (∃ e, validate (fun _ => ⟨false, false, false⟩) [] [("h", ["/x"])] = .error e ∧
      deleteOp (fun _ => ⟨false, false, false⟩) true [] [("h", ["/x"])]
        = ([], some e)) :=
  ⟨by decide,
    (C8_validate_and_delete (fun _ => ⟨false, false, false⟩) true [] [("h", ["/x"])]
      "/x" (by decide) (Or.inl rfl)).1⟩

theorem matchDollar_iff (cs : List Char) :
    matchDollar cs = true ↔ cs = [] ∨ cs = ['\n'] := by
  rcases cs with _ | ⟨c, rest⟩
  · simp [matchDollar]
  · rcases rest with _ | ⟨d, rest2⟩
    · simp [matchDollar]
    · simp [matchDollar]

theorem matchDotPlusDollar_iff : ∀ cs : List Char,
    matchDotPlusDollar cs = true ↔
      ∃ u, u ≠ [] ∧ (∀ c ∈ u, c ≠ '\n') ∧ (cs = u ∨ cs = u ++ ['\n'])
  | [] => by
      constructor
      · intro hcontra
        simp [matchDotPlusDollar] at hcontra
      · rintro ⟨u, hne, _, (hcase | hcase)⟩
        · exact absurd hcase.symm hne
        · exact absurd hcase.symm (by simp)
  | c :: rest => by
      constructor
      · intro htrue
        have h2 : (!(c == '\n') && (matchDollar rest || matchDotPlusDollar rest)) = true :=
          htrue
        simp only [Bool.and_eq_true, Bool.or_eq_true, Bool.not_eq_true',
          beq_eq_false_iff_ne] at h2
        obtain ⟨hc, hor⟩ := h2
        rcases hor with hd | hr
        · rcases (matchDollar_iff rest).mp hd with rfl | rfl
          · exact ⟨[c], by simp, by simpa using hc, Or.inl rfl⟩
          · exact ⟨[c], by simp, by simpa using hc, Or.inr rfl⟩
        · obtain ⟨u, hne, hnl, hcase⟩ := (matchDotPlusDollar_iff rest).mp hr
          refine ⟨c :: u, by simp, ?_, ?_⟩
          · intro x hx
            rcases List.mem_cons.mp hx with rfl | hx'
            · exact hc
            · exact hnl x hx'
          · rcases hcase with rfl | rfl
            · exact Or.inl rfl
            · exact Or.inr rfl
      · rintro ⟨u, hne, hnl, hcase⟩
        rcases u with _ | ⟨uc, urest⟩
        · exact absurd rfl hne
        · have hcu : c = uc ∧ (rest = urest ∨ rest = urest ++ ['\n']) := by
            rcases hcase with hc | hc
            · injection hc with h1 h2
              exact ⟨h1, Or.inl h2⟩
            · rw [List.cons_append] at hc
              injection hc with h1 h2
              exact ⟨h1, Or.inr h2⟩
          have hcnl : c ≠ '\n' := by
            rw [hcu.1]
            exact hnl uc (List.mem_cons_self uc urest)
          have htail : (matchDollar rest || matchDotPlusDollar rest) = true := by
            rcases hcu.2 with hre | hre
            · rcases urest with _ | ⟨x, xs⟩
              · rw [hre]
                simp [matchDollar]
              · have hrec : matchDotPlusDollar rest = true :=
                  (matchDotPlusDollar_iff rest).mpr
                    ⟨x :: xs, by simp,
                      fun y hy => hnl y (List.mem_cons_of_mem uc hy), Or.inl hre⟩
                simp [hrec]
            · rcases urest with _ | ⟨x, xs⟩
              · rw [hre]
                simp [matchDollar]
              · have hrec : matchDotPlusDollar rest = true :=
                  (matchDotPlusDollar_iff rest).mpr
                    ⟨x :: xs, by simp,
                      fun y hy => hnl y (List.mem_cons_of_mem uc hy), Or.inr hre⟩
                simp [hrec]
          show (!(c == '\n') && (matchDollar rest || matchDotPlusDollar rest)) = true
          simp [hcnl, htail]

theorem matchSuffix_iff (r : List Char) : matchSuffix r = true ↔ hashSuffixOk r := by
  unfold matchSuffix hashSuffixOk
  constructor
  · intro htrue
    simp only [Bool.or_eq_true] at htrue
    rcases htrue with hd | hm
    · rcases (matchDollar_iff r).mp hd with rfl | rfl
      · exact Or.inl rfl
      · exact Or.inr (Or.inl rfl)
    · rcases r with _ | ⟨c, rest⟩
      · cases hm
      · simp only [Bool.and_eq_true, beq_iff_eq] at hm
        obtain ⟨rfl, hmdp⟩ := hm
        obtain ⟨u, hne, hnl, hcase⟩ := (matchDotPlusDollar_iff rest).mp hmdp
        refine Or.inr (Or.inr ⟨u, hne, hnl, ?_⟩)
        rcases hcase with rfl | rfl
        · exact Or.inl rfl
        · exact Or.inr rfl
  · rintro (rfl | rfl | ⟨u, hne, hnl, (rfl | rfl)⟩)
    · simp [matchDollar]
    · simp [matchDollar]
    · have hmdp : matchDotPlusDollar u = true :=
        (matchDotPlusDollar_iff u).mpr ⟨u, hne, hnl, Or.inl rfl⟩
      simp [hmdp]
    · have hmdp : matchDotPlusDollar (u ++ ['\n']) = true :=
        (matchDotPlusDollar_iff (u ++ ['\n'])).mpr ⟨u, hne, hnl, Or.inr rfl⟩
      simp [hmdp]

theorem matchHexN_some_iff : ∀ (n : Nat) (cs r : List Char),
    matchHexN n cs = some r ↔
      (n ≤ cs.length ∧ (∀ c ∈ cs.take n, hexCI c = true) ∧ r = cs.drop n)
  | 0, cs, r => by
      rw [show matchHexN 0 cs = some cs from rfl]
      constructor
      · intro hsome
        injection hsome with hsome
        refine ⟨Nat.zero_le _, by simp, ?_⟩
        rw [List.drop_zero]
        exact hsome.symm
      · rintro ⟨_, _, hr⟩
        rw [List.drop_zero] at hr
        rw [hr]
  | n + 1, [], r => by
      constructor
      · intro hcontra
        rw [show matchHexN (n + 1) [] = none from rfl] at hcontra
        cases hcontra
      · rintro ⟨hlen, _, _⟩
        simp only [List.length_nil] at hlen
        exact absurd hlen (by omega)
  | n + 1, c :: cs, r => by
      by_cases hc : hexCI c = true
      · rw [show matchHexN (n + 1) (c :: cs) = matchHexN n cs from by
          simp [matchHexN, hc]]
        rw [matchHexN_some_iff n cs r]
        constructor
        · rintro ⟨hlen, hall, hr⟩
          refine ⟨by simpa using Nat.succ_le_succ hlen, ?_, by simpa using hr⟩
          intro x hx
          rw [List.take_succ_cons] at hx
          rcases List.mem_cons.mp hx with rfl | hx'
          · exact hc
          · exact hall x hx'
        · rintro ⟨hlen, hall, hr⟩
          refine ⟨Nat.le_of_succ_le_succ (by simpa using hlen), ?_, by simpa using hr⟩
          intro x hx
          exact hall x (by rw [List.take_succ_cons]; exact List.mem_cons_of_mem c hx)
      · rw [show matchHexN (n + 1) (c :: cs) = none from by simp [matchHexN, hc]]
        constructor
        · intro hcontra
          cases hcontra
        · rintro ⟨_, hall, _⟩
          exact absurd
            (hall c (by rw [List.take_succ_cons]; exact List.mem_cons_self c _)) hc

theorem matchSha_iff (s : String) :
    matchSha s = true ↔
      (64 ≤ s.data.length ∧ (∀ c ∈ s.data.take 64, hexCI c = true) ∧
        hashSuffixOk (s.data.drop 64)) := by
  unfold matchSha
  rcases hmx : matchHexN 64 s.data with _ | rest
  · constructor
    · intro hcontra
      cases hcontra
    · rintro ⟨hlen, hall, _⟩
      have hsome : matchHexN 64 s.data = some (s.data.drop 64) :=
        (matchHexN_some_iff 64 s.data _).mpr ⟨hlen, hall, rfl⟩
      rw [hmx] at hsome
      cases hsome
  · obtain ⟨hlen, hall, hr⟩ := (matchHexN_some_iff 64 s.data rest).mp hmx
    subst hr
    rw [matchSuffix_iff]
    constructor
    · intro hsuf
      exact ⟨hlen, hall, hsuf⟩
    · rintro ⟨_, _, hsuf⟩
      exact hsuf

/-- C9 counterexample: a 64-character UPPERCASE hex digest.  The claim
says `checkHash` must raise `ValueError` (the digest is present but not
lowercase hex); the regex is compiled with `re.IGNORECASE` and the call
returns normally. -/
theorem C9_counterexample :
    checkHash { hash := some (String.mk (List.replicate 64 'A')) } = .ok () ∧
    isLower64Hex (String.mk (List.replicate 64 'A')) = false := by
  refine ⟨rfl, by decide⟩

/-- C9 (amended): for any record, `checkHash` returns normally iff the
hash field is absent, empty, or at least 64 characters long with the
first 64 case-insensitive hex digits and the remainder one of: nothing,
a single trailing newline, or a colon plus a nonempty newline-free run
optionally ending in one trailing newline; in every other case it raises
`ValueError`. -/
theorem C9_checkHash_amended (fp : fparms) :
    checkHash fp = .ok () ↔
      (fp.hash = none ∨ fp.hash = some "" ∨
        ∃ s, fp.hash = some s ∧ 64 ≤ s.data.length ∧
          (∀ c ∈ s.data.take 64, hexCI c = true) ∧
          hashSuffixOk (s.data.drop 64)) := by
  rcases hh : fp.hash with _ | s
  · simp [checkHash, hh]
  · simp only [checkHash, hh]
    by_cases hs : s = ""
    · subst hs
      simp
    · rw [if_neg hs]
      by_cases hm : matchSha s = true
      · rw [if_pos hm]
        have hchr := (matchSha_iff s).mp hm
        constructor
        · intro _
          exact Or.inr (Or.inr ⟨s, rfl, hchr⟩)
        · intro _
          rfl
      · rw [if_neg (by simpa using hm)]
        constructor
        · intro hcontra
          cases hcontra
        · rintro (hno | hemp | ⟨s', hs', hlen, hall, hsuf⟩)
          · cases hno
          · injection hemp with he
            exact absurd he hs
          · injection hs' with he
            subst he
            exact absurd ((matchSha_iff _).mpr ⟨hlen, hall, hsuf⟩) hm

end Pydupe
